import Mathlib

/-!
Verification of the tyranno-sandbox template-synchronization engine.

This file gives a shallow embedding of the core modules
(`dot_tree.py`, `sync.py`, `james.py`, `context.py`) and proves or refutes
the specification claims about them.

Modelling conventions:
* a Python `str` is a `List Char` (named `Str` below);
* a Python `dict` is an insertion-ordered association list with unique keys;
  assignment `d[k] = v` replaces in place (keeping the position) or appends;
* a Python exception is the `Except.error` branch of an `Except`;
* Python `None` (as a value) is represented where needed by `Option`/`PyVal`.
-/

set_option autoImplicit false
set_option linter.unusedVariables false
set_option linter.unreachableTactic false
set_option linter.unusedTactic false
set_option linter.unnecessarySeqFocus false

namespace TyrannoSpec

/-- A Python string, as its sequence of characters. -/
abbrev Str := List Char

/-- Open-brace character (written via an escape). -/
def obr : Char := '\x7b'

/-- Close-brace character (written via an escape). -/
def cbr : Char := '\x7d'

/-- `needle` is a leading segment of `hay` (Python `str.startswith`). -/
def leadsWith : Str → Str → Bool
  | [], _ => true
  | _ :: _, [] => false
  | a :: as, b :: bs => a = b && leadsWith as bs

/-- Left-to-right evaluation of a Python comprehension/generator over a
fallible function: the first exception aborts. -/
def mapME {a b e : Type} (f : a → Except e b) : List a → Except e (List b)
  | [] => .ok []
  | x :: r =>
    match f x with
    | .error err => .error err
    | .ok y =>
      match mapME f r with
      | .error err => .error err
      | .ok ys => .ok (y :: ys)

/-- Python `"." in key`. -/
def containsDot (s : Str) : Bool := s.any (· = '.')

/-- Python `key.split(".", 1)` when `key` contains a dot: returns the part
before the first dot and the part after it; `none` when there is no dot. -/
def dotSplit1 : Str → Option (Str × Str)
  | [] => none
  | c :: r =>
    if c = '.' then some ([], r)
    else match dotSplit1 r with
      | some (h, t) => some (c :: h, t)
      | none => none

/-- Python `keys.split(".")`: the full split on every dot.  Always returns a
nonempty list; `"".split(".") == [""]`. -/
def splitDot : Str → List Str
  | [] => [[]]
  | c :: r =>
    if c = '.' then [] :: splitDot r
    else match splitDot r with
      | s :: ss => (c :: s) :: ss
      | [] => [[c]]

/-- Joins path segments with dots (inverse of `splitDot` on dot-free segments). -/
def joinP : List Str → Str
  | [] => []
  | [s] => s
  | s :: rest => s ++ '.' :: joinP rest

/-! ## The TOML data model of `dot_tree.py`

`Primitive` covers the claim-relevant primitive types.  The remaining Python
primitive types (`float`, `date`, `datetime`, `time`) behave identically to
the ones below in every operation embedded here (the code only distinguishes
`dict`, `list`, and exact runtime type equality), so they are not repeated. -/

inductive Prim where
  | pStr (s : Str)
  | pInt (i : Int)
  | pBool (b : Bool)
deriving DecidableEq

/-- A node of parsed configuration data: a primitive, an array, or a branch
(a Python `dict` as an insertion-ordered association list). -/
inductive Toml where
  | prim (p : Prim)
  | arr (elems : List Toml)
  | branch (entries : List (Str × Toml))

instance : Inhabited Toml := ⟨Toml.branch []⟩

/-- A Python `dict[str, Toml]`. -/
abbrev Dict := List (Str × Toml)

/-- Python `dst.get(key)`: first value stored under `key`. -/
def dlookup : Dict → Str → Option Toml
  | [], _ => none
  | (k, v) :: r, q => if k = q then some v else dlookup r q

/-- Python `dst[key] = item`: replace in place if the key exists, else append. -/
def dset : Dict → Str → Toml → Dict
  | [], q, x => [(q, x)]
  | (k, v) :: r, q, x => if k = q then (k, x) :: r else (k, v) :: dset r q x

/-- Python `dst.update(other)`: assign every pair of `other` in order. -/
def updAll (dst : Dict) (other : Dict) : Dict :=
  other.foldl (fun d kv => dset d kv.1 kv.2) dst

/-- The runtime type tag used by `type(found) is not type(item)` checks. -/
inductive Tag where
  | tDict | tList | tStr | tInt | tBool
deriving DecidableEq

/-- Python `type(x)` restricted to the embedded value types. -/
def tag : Toml → Tag
  | .branch _ => .tDict
  | .arr _ => .tList
  | .prim (.pStr _) => .tStr
  | .prim (.pInt _) => .tInt
  | .prim (.pBool _) => .tBool

/-- `Utils.merge_lists` of the module-level `_UTILS = Utils()` instance. -/
def merge_lists : Bool := false

/-- Errors raised while nesting (`dot_tree.Utils.nest` and helpers).
`attrErr` stands for the `AttributeError` Python would raise if
`_nest` were entered with a non-dict destination. -/
inductive NestErr where
  | duplicateKey (key : Str)
  | attrErr
deriving DecidableEq

/-- `Utils._nest_check`: raise `DuplicateKeyError` when `key` is already
present with a structurally incompatible value. -/
def nestCheck (dst : Dict) (key : Str) (item : Toml) : Except NestErr Unit :=
  match dlookup dst key with
  | none => .ok ()
  | some found =>
    if (tag found != tag item) ||
        (!(tag found == Tag.tDict) && !(tag found == Tag.tList)) ||
        ((tag found == Tag.tList) && !merge_lists)
    then .error (.duplicateKey key) else .ok ()

/-- The tail returned by `dotSplit1` is strictly shorter than the input
(used only for termination of the nesting recursion). -/
theorem dotSplit1_tl_lt : ∀ (key hd tl : Str), dotSplit1 key = some (hd, tl) →
    tl.length < key.length := by
  intro key
  induction key with
  | nil => intro hd tl h; simp [dotSplit1] at h
  | cons c r ih =>
    intro hd tl h
    by_cases hc : c = '.'
    · simp [dotSplit1, hc] at h
      simp [← h.2]
    · simp [dotSplit1, hc] at h
      cases hr : dotSplit1 r with
      | none => rw [hr] at h; simp at h
      | some p =>
        rw [hr] at h
        simp at h
        have := ih p.1 p.2 (by rw [hr])
        have h2 : tl = p.2 := by rw [← h.2]
        simp [h2]
        omega

mutual

/-- `Utils._nest(dst, key, item)`: check, then nest at a dotted or plain key. -/
def nest1 (dst : Dict) (key : Str) (item : Toml) : Except NestErr Dict :=
  match nestCheck dst key item with
  | .error e => .error e
  | .ok () =>
    match h : dotSplit1 key with
    | some (hd, tl) => nestBranch dst hd tl item
    | none => nestLeaf dst key item
termination_by (sizeOf item, 2 * key.length + 2)
decreasing_by
  all_goals simp_wf
  all_goals first
    | exact Prod.Lex.left _ _ (by omega)
    | exact Prod.Lex.right _ (by have := dotSplit1_tl_lt key hd tl h; omega)
    | exact Prod.Lex.right _ (by omega)

/-- `Utils._nest_branch(dst, key, item)` with `key = hd ++ "." ++ tl` already
split once (`key.split(".", 1)`).  `dst.setdefault(hd, {})` followed by the
in-place mutation of the sub-dict is rendered as a recursive call on the
sub-dict with the result stored back at `hd`. -/
def nestBranch (dst : Dict) (hd tl : Str) (item : Toml) : Except NestErr Dict :=
  match dlookup dst hd with
  | some (.branch b) =>
    match nest1 b tl item with
    | .ok b2 => .ok (dset dst hd (.branch b2))
    | .error e => .error e
  | some _ => .error (.duplicateKey hd)
  | none =>
    match nest1 [] tl item with
    | .ok b2 => .ok (dset dst hd (.branch b2))
    | .error e => .error e
termination_by (sizeOf item, 2 * tl.length + 3)
decreasing_by
  all_goals simp_wf
  all_goals first
    | exact Prod.Lex.left _ _ (by omega)
    | exact Prod.Lex.right _ (by omega)

/-- `Utils._nest_leaf(dst, key, item)` (with `merge_lists = False`, the list
branch falls through to plain assignment). -/
def nestLeaf (dst : Dict) (key : Str) (item : Toml) : Except NestErr Dict :=
  match item with
  | .branch kvs =>
    match (match dlookup dst key with | some v => v | none => Toml.branch []) with
    | .branch node =>
      match nestMany node kvs with
      | .ok node2 => .ok (dset dst key (.branch node2))
      | .error e => .error e
    | _ => .error .attrErr
  | _ => .ok (dset dst key item)
termination_by (sizeOf item, 2 * key.length + 1)
decreasing_by
  all_goals simp_wf
  all_goals first
    | exact Prod.Lex.left _ _ (by omega)
    | exact Prod.Lex.right _ (by omega)

/-- Sequentially `_nest` every pair of `kvs` into `dst`. -/
def nestMany (dst : Dict) (kvs : List (Str × Toml)) : Except NestErr Dict :=
  match kvs with
  | [] => .ok dst
  | (k, v) :: rest =>
    match nest1 dst k v with
    | .ok d2 => nestMany d2 rest
    | .error e => .error e
termination_by (sizeOf kvs, 0)
decreasing_by
  all_goals simp_wf
  all_goals first
    | exact Prod.Lex.left _ _ (by omega)
    | exact Prod.Lex.right _ (by omega)

end

/-- `Utils.nest(items)`: convert a dict with dotted keys to a nested dict. -/
def nest (items : Dict) : Except NestErr Dict := nestMany [] items

/-- `DotTree.from_dotted(x)` (the `DotTree` constructor itself only checks
that the argument is a dict). -/
def from_dotted (x : Dict) : Except NestErr Dict := nest x

/-- `DotTree.leaves()`, written with an explicit accumulator for the Python
`dct` dict; the comprehension `{key + "." + k: v for ...}` is rendered as a
`map` (its keys are distinct, so building it by insertion is the same). -/
def leavesAux : Dict → Dict → Dict
  | [], dct => dct
  | (k, .branch sub) :: rest, dct =>
    leavesAux rest (updAll dct ((leavesAux sub []).map (fun kv => (k ++ '.' :: kv.1, kv.2))))
  | (k, v) :: rest, dct => leavesAux rest (dset dct k v)

/-- `DotTree.leaves()`. -/
def leaves (t : Dict) : Dict := leavesAux t []

/-! ## `DotTree._access`, `access`, and `get` -/

/-- Errors raised by `DotTree._access`: `KeyError` ("No such key ...") or
`TypeError` ("Value at key ... is not an object"), each carrying the already
resolved segments and the failing segment. -/
inductive AccErr where
  | noSuchKey (seen : List Str) (k : Str)
  | notObject (seen : List Str) (k : Str)
deriving DecidableEq

/-- The loop body of `DotTree._access`: walk the remaining split segments,
checking at every step that the current node is a dict. -/
def accessGo : Toml → List Str → List Str → Except AccErr Toml
  | x, [], _ => .ok x
  | .branch d, k :: rest, seen =>
    match dlookup d k with
    | some v => accessGo v rest (seen ++ [k])
    | none => .error (.noSuchKey seen k)
  | _, k :: _, seen => .error (.notObject seen k)

/-- `DotTree.access(keys)` / `DotTree._access(keys)`. -/
def access (tree : Dict) (keys : Str) : Except AccErr Toml :=
  accessGo (.branch tree) (splitDot keys) []

/-- `DotTree.get(keys, default)`: `_access`, catching only `KeyError`
(a `TypeError` from `_access` propagates). -/
def get (tree : Dict) (keys : Str) (default : Option Toml) : Except AccErr (Option Toml) :=
  match access tree keys with
  | .ok v => .ok (some v)
  | .error (.noSuchKey _ _) => .ok default
  | .error e => .error e

/-! ## `DotTrees.merge_leaves` and `DotTrees.leaf_intersection` -/

mutual

/-- Structural equality of embedded values (Python `==` on parsed data). -/
def tomlBeq : Toml → Toml → Bool
  | .prim p, .prim q => p == q
  | .arr xs, .arr ys => tomlListBeq xs ys
  | .branch d, .branch e => tomlDictBeq d e
  | _, _ => false
termination_by a => sizeOf a
decreasing_by all_goals simp_wf <;> omega

/-- Elementwise equality of arrays. -/
def tomlListBeq : List Toml → List Toml → Bool
  | [], [] => true
  | x :: xs, y :: ys => tomlBeq x y && tomlListBeq xs ys
  | _, _ => false
termination_by a => sizeOf a
decreasing_by all_goals simp_wf <;> omega

/-- Pairwise equality of dicts (Python `==` on dicts is order-insensitive;
the dicts compared here are leaf dicts with identical construction order,
so positional comparison is faithful where it is used). -/
def tomlDictBeq : List (Str × Toml) → List (Str × Toml) → Bool
  | [], [] => true
  | (k, v) :: xs, (l, w) :: ys => k = l && tomlBeq v w && tomlDictBeq xs ys
  | _, _ => false
termination_by a => sizeOf a
decreasing_by all_goals simp_wf <;> omega

end

/-- Number of distinct values in a list (Python `len(set(v))`). -/
def distinctCount (vs : List Toml) : Nat :=
  (vs.foldl (fun acc v => if acc.any (fun w => tomlBeq w v) then acc else acc ++ [v]) []).length

/-- Errors raised by `DotTrees.merge_leaves` (`LeafIntersectionError`,
`LeafConflictError`), or a `DuplicateKeyError` propagated out of
`DotTree.from_dotted`. -/
inductive MergeErr where
  | leafIntersectionError (intersection : List (Str × List Toml))
  | leafConflictError (intersection : List (Str × List Toml))
  | nestError (e : NestErr)

/-- `DotTrees.leaf_intersection(*limbs)`: maps each key shared by two or more
limbs to its values in those limbs.  (Python accumulates `all_keys` in a
`set`, whose iteration order is unspecified; first-seen order is used here.) -/
def leaf_intersection (limbs : List Dict) : List (Str × List Toml) :=
  let all_keys : List Str :=
    limbs.foldl (fun acc l => acc ++ ((l.map Prod.fst).filter (fun k => ¬ acc.contains k))) []
  let dict_ := all_keys.map (fun k => (k, limbs.filterMap (fun l => dlookup l k)))
  dict_.filter (fun kv => kv.2.length > 1)

/-- The policy strings accepted (per the type annotation) by `merge_leaves`. -/
def alwaysStr : Str := "always".data

/-- Policy literal `"if_values_match"`. -/
def ifValuesMatchStr : Str := "if_values_match".data

/-- Policy literal `"never"`. -/
def neverStr : Str := "never".data

/-- The literal `"same_value"` that the conflict branch of `merge_leaves`
compares `replace` against. -/
def sameValueStr : Str := "same_value".data

/-- `DotTrees.merge_leaves(*trees, replace=...)`.  `replace` is carried as the
runtime string, exactly as the Python comparisons see it. -/
def merge_leaves (trees : List Dict) (replace : Str) : Except MergeErr Dict :=
  let limbs := trees.map leaves
  if replace = neverStr ∧ ¬ (leaf_intersection limbs).isEmpty then
    .error (.leafIntersectionError (leaf_intersection limbs))
  else if replace = sameValueStr ∧ ¬ (leaf_intersection limbs).isEmpty ∧
      (leaf_intersection limbs).any (fun kv => distinctCount kv.2 > 1) then
    .error (.leafConflictError (leaf_intersection limbs))
  else
    match from_dotted (limbs.foldl updAll []) with
    | .ok t => .ok t
    | .error e => .error (.nestError e)

/-! ## Validity of nested data, leaf paths, and pruning

`validD` is the claim-side reading of "built from valid nested data": string
keys that are nonempty and contain no `.`, distinct keys per branch.  (The
`Checker` additionally restricts keys to a character class; using the weaker
condition only strengthens the theorems proved under it.) -/

/-- A single key is valid: nonempty and dot-free. -/
def validKey (k : Str) : Bool := !k.isEmpty && !containsDot k

mutual

/-- Validity of a value. -/
def validT : Toml → Bool
  | .prim _ => true
  | .arr _ => true
  | .branch d => validD d
termination_by t => sizeOf t
decreasing_by all_goals simp_wf <;> omega

/-- Validity of a branch dict: every key valid and distinct, every value valid. -/
def validD : Dict → Bool
  | [] => true
  | (k, v) :: rest =>
    validKey k && validT v && rest.all (fun kv => kv.1 ≠ k) && validD rest
termination_by d => sizeOf d
decreasing_by all_goals simp_wf <;> omega

end

/-- The leaves of a branch dict as segment paths, in traversal order. -/
def leafPaths : Dict → List (List Str × Toml)
  | [] => []
  | (k, .branch sub) :: rest =>
    (leafPaths sub).map (fun pv => (k :: pv.1, pv.2)) ++ leafPaths rest
  | (k, v) :: rest => ([k], v) :: leafPaths rest
termination_by d => sizeOf d
decreasing_by all_goals simp_wf <;> omega

/-- Drops (recursively) the branches that contain no leaves. -/
def pruneD : Dict → Dict
  | [] => []
  | (k, .branch sub) :: rest =>
    (if (leafPaths sub).isEmpty then [] else [(k, Toml.branch (pruneD sub))]) ++ pruneD rest
  | (k, v) :: rest => (k, v) :: pruneD rest
termination_by d => sizeOf d
decreasing_by all_goals simp_wf <;> omega

/-! ## `context.py`: `Data.expand_var` and `Data.replace_vars_in`

The JMESPath evaluator is an external library; it is modelled by an abstract
`search : Str → Option Toml` where `none` is the Python `None` that
`jmespath.compile(...).search(...)` returns on "no match". -/

/-- A Python value as seen by `re.sub`'s replacement callable: either parsed
data or `None`. -/
inductive PyVal where
  | val (t : Toml)
  | pyNone

/-- Exceptions that can escape `Data.replace_vars_in` / the sync engine:
a `KeyError`/`TypeError` from `DotTree.access`, the `TypeError` raised by
`re.sub` when the replacement callable returns a non-`str`, and the
`IndexError` raised by `m.group("capture")` in `sync.py` (the compiled
pattern only defines a group named `line`). -/
inductive PyErr where
  | accessError (e : AccErr)
  | reSubTypeError
  | noSuchGroupError
deriving DecidableEq

/-- Python `str.strip()`. -/
def pyStrip (s : Str) : Str :=
  ((s.dropWhile Char.isWhitespace).reverse.dropWhile Char.isWhitespace).reverse

/-- The literal `"~."`. -/
def tildeDot : Str := "~.".data

/-- The literal `"tool.tyranno.data"`. -/
def toolTyrannoData : Str := "tool.tyranno.data".data

/-- First character class of `SIMPLE_KEY_REGEX`: `[A-Za-z_]`. -/
def keyChar0 (c : Char) : Bool := c.isAlpha || c = '_'

/-- Later character class of `SIMPLE_KEY_REGEX`: `[A-Za-z0-9_-]`. -/
def keyCharRest (c : Char) : Bool := c.isAlphanum || c = '_' || c = '-'

/-- One segment of `SIMPLE_KEY_REGEX`. -/
def simpleSeg : Str → Bool
  | [] => false
  | c :: r => keyChar0 c && r.all keyCharRest

/-- `SIMPLE_KEY_REGEX.fullmatch(expression)`: dot-separated identifier
segments. -/
def simpleKeyFull (s : Str) : Bool := (splitDot s).all simpleSeg

/-- The leading rewrites of `Data.expand_var`: `strip`, the `"~."` rewrite
(the code prepends `"tool.tyranno.data"` to the *unchanged* expression), and
the `in_key`-relative rewrite. -/
def rewriteExpr (expression : Str) (in_key : Str) : Str :=
  let e1 := pyStrip expression
  let e2 := if leadsWith tildeDot e1 then toolTyrannoData ++ e1 else e1
  if ¬ in_key.isEmpty ∧ leadsWith ['.'] e2 then in_key ++ e2 else e2

/-- `Data.expand_var(expression, in_key=...)`: a simple dotted key goes
through `DotTree.access` (whose exceptions propagate); anything else goes to
the JMESPath evaluator, which yields `None` ("no match") rather than raising. -/
def expand_var (search : Str → Option Toml) (tree : Dict) (expression : Str) (in_key : Str) :
    Except PyErr PyVal :=
  let e := rewriteExpr expression in_key
  if simpleKeyFull e then
    match access tree e with
    | .ok v => .ok (.val v)
    | .error a => .error (.accessError a)
  else
    match search e with
    | some t => .ok (.val t)
    | none => .ok .pyNone

/-- Splits a string at the first occurrence of two consecutive close braces,
returning the part before and after; `none` if there is none. -/
def findClose : Str → Option (Str × Str)
  | [] => none
  | [_] => none
  | c :: c2 :: r =>
    if c = cbr ∧ c2 = cbr then some ([], r)
    else (findClose (c2 :: r)).map (fun p => (c :: p.1, p.2))

/-- The first match of `EXPR_REGEX` (with `re.VERBOSE`, the pattern is
dollar + two open braces, a body that cannot contain two consecutive close
braces, then two close braces): returns `(before, captured body, after)`. -/
def splitFirstExpr : Str → Option (Str × Str × Str)
  | [] => none
  | c :: rest =>
    if c = '$' ∧ leadsWith [obr, obr] rest then
      match findClose (rest.drop 2) with
      | some (body, after) => some ([], body, after)
      | none => none
    else (splitFirstExpr rest).map (fun p => (c :: p.1, p.2.1, p.2.2))

/-- Bound used for termination of the substitution loop. -/
theorem findClose_after_lt : ∀ (s : Str) (p : Str × Str), findClose s = some p →
    p.2.length + 2 ≤ s.length := by
  intro s
  induction s with
  | nil => intro p h; simp [findClose] at h
  | cons c r ih =>
    intro p h
    match r with
    | [] => simp [findClose] at h
    | c2 :: r2 =>
      rw [findClose] at h
      split at h
      · cases h
        simp
      · rw [Option.map_eq_some'] at h
        obtain ⟨q, hq, hfq⟩ := h
        have := ih q hq
        cases hfq
        simp at this ⊢
        omega

/-- Bound used for termination of the substitution loop. -/
theorem splitFirstExpr_after_lt : ∀ (s : Str) (p : Str × Str × Str),
    splitFirstExpr s = some p → p.2.2.length < s.length := by
  intro s
  induction s with
  | nil => intro p h; simp [splitFirstExpr] at h
  | cons c r ih =>
    intro p h
    rw [splitFirstExpr] at h
    split at h
    · cases hf : findClose (r.drop 2) with
      | none => rw [hf] at h; simp at h
      | some q =>
        rw [hf] at h
        cases h
        have h1 := findClose_after_lt _ q hf
        have h2 : (r.drop 2).length ≤ r.length := by simp
        simp
        omega
    · rw [Option.map_eq_some'] at h
      obtain ⟨q, hq, hfq⟩ := h
      have := ih q hq
      cases hfq
      simp at this ⊢
      omega

/-- `re.sub`'s requirement that the replacement callable return a `str`. -/
def pyStr? : PyVal → Except PyErr Str
  | .val (.prim (.pStr s)) => .ok s
  | _ => .error .reSubTypeError

/-- `Data.replace_vars_in(template, in_key=...)`: replace every
`EXPR_REGEX` match by the expanded expression, which must be a string. -/
def replace_vars_in (search : Str → Option Toml) (tree : Dict) (template : Str)
    (in_key : Str) : Except PyErr Str :=
  match h : splitFirstExpr template with
  | none => .ok template
  | some (pre, body, after) =>
    match expand_var search tree body in_key with
    | .error e => .error e
    | .ok v =>
      match pyStr? v with
      | .error e => .error e
      | .ok s =>
        match replace_vars_in search tree after in_key with
        | .error e => .error e
        | .ok rest => .ok (pre ++ s ++ rest)
termination_by template.length
decreasing_by
  simp_wf
  exact splitFirstExpr_after_lt template (pre, body, after) h

/-! ## `sync.py`: the per-file state machine

`TOKENS.inline_regex("#", "")` compiles to the pattern
"start of line, `#`, optional whitespace, `::tyranno::`, a possessive
capture of the rest of the line (group name `line`)"; `matchInlinePound`
is that match, returning the captured text.  The code, however, asks the
match object for a group named `capture`, which raises `IndexError`. -/

/-- The marker literal `Tokens.tyranno_inline`. -/
def tyrannoInline : Str := "::tyranno::".data

/-- `TOKENS.inline_regex("#", "").fullmatch(line)`, returning the text
captured by the group named `line`. -/
def matchInlinePound (line : Str) : Option Str :=
  match line with
  | '#' :: rest =>
    let r2 := rest.dropWhile Char.isWhitespace
    if leadsWith tyrannoInline r2 then some (r2.drop tyrannoInline.length) else none
  | _ => none

/-- `sync.DeltaBlock` (kind is always `"inline"`; the path is per-file). -/
structure DeltaBlock where
  first_line_number : Nat
  templates : List Str
  old_lines : List Str
  new_lines : List Str

/-- The mutable state of `sync.SyncHelper`. -/
structure SyncSt where
  line_number : Nat
  old_lines : List Str
  new_lines : List Str
  templates : List Str
  template_rewind : Int
  hits : List DeltaBlock

/-- `SyncHelper._next_line` (one loop iteration of `SyncHelper.run`,
including the append of a returned `DeltaBlock` to `hits`).
The branch structure is exactly the source's `if`/`elif` chain; note that
`elif self._template_rewind:` tests truthiness, so it fires for the initial
sentinel value `-1` as well as for any other non-zero value not caught by
the first branch. -/
def nextLine (search : Str → Option Toml) (tree : Dict) (st : SyncSt) :
    Except PyErr SyncSt :=
  let line := st.old_lines.getD st.line_number []
  if st.template_rewind > 0 then
    .ok { st with template_rewind := st.template_rewind - 1 }
  else if st.template_rewind ≠ 0 then
    let original := (st.old_lines.take st.line_number).drop
      (st.line_number - st.templates.length)
    match mapME (fun t => replace_vars_in search tree t []) st.templates with
    | .error e => .error e
    | .ok newl =>
      .ok { st with
        new_lines := st.new_lines ++ newl,
        templates := [],
        template_rewind := -1,
        hits := st.hits ++ [⟨st.line_number, st.templates, original, newl⟩] }
  else if (matchInlinePound line).isSome then
    .error .noSuchGroupError
  else if ¬ st.templates.isEmpty then
    .ok { st with
      template_rewind := st.templates.length,
      templates := st.templates ++ [line] }
  else
    .ok { st with new_lines := st.new_lines ++ [line] }

/-- The loop of `SyncHelper.run`: `n` iterations of `_next_line`, each
followed by `self._line_number += 1`. -/
def runRange (search : Str → Option Toml) (tree : Dict) : Nat → SyncSt → Except PyErr SyncSt
  | 0, st => .ok st
  | n + 1, st =>
    match nextLine search tree st with
    | .error e => .error e
    | .ok st1 => runRange search tree n { st1 with line_number := st1.line_number + 1 }

/-- `SyncHelper` run on a file whose text splits into `input_lines`
(`__post_init__` appends one empty line to the split). -/
def runSync (search : Str → Option Toml) (tree : Dict) (input_lines : List Str) :
    Except PyErr SyncSt :=
  let old := input_lines ++ [[]]
  runRange search tree old.length ⟨0, old, [], [], -1, []⟩

/-! ## `james.py`: PEP 440 versions, `sanitize_pep440`, sorting, `format_dt`

`packaging.version.Version` is an external library.  It is modelled by the
structure `Pep440` (epoch, release tuple, pre/post/dev segments), a parser
for the canonical spellings used by the claims, and the library's documented
total order (epoch, then release with trailing zeros dropped, then
dev < pre < final < post). -/

/-- Modelled from the external `packaging.version.Version`: the parsed
segments of a PEP 440 version (local segments are not needed here). -/
structure Pep440 where
  epoch : Nat
  release : List Nat
  pre : Option (Str × Nat)
  post : Option Nat
  dev : Option Nat
deriving DecidableEq

/-- Decimal digits to a natural number. -/
def strToNat (ds : Str) : Nat := ds.foldl (fun a c => a * 10 + (c.toNat - 48)) 0

/-- Reads a leading run of digits. -/
def grabNum (s : Str) : Option (Nat × Str) :=
  let ds := s.takeWhile Char.isDigit
  if ds.isEmpty then none else some (strToNat ds, s.dropWhile Char.isDigit)

/-- A nonempty run of digits. -/
def allDigits (s : Str) : Bool := !s.isEmpty && s.all Char.isDigit

/-- A canonical pre-release marker attached to the last release component
(`rcN`, `aN`, `bN`). -/
def parsePreSeg (s : Str) : Option (Str × Nat) :=
  if leadsWith ("rc".data) s ∧ allDigits (s.drop 2) then some ("rc".data, strToNat (s.drop 2))
  else if leadsWith ("a".data) s ∧ allDigits (s.drop 1) then some ("a".data, strToNat (s.drop 1))
  else if leadsWith ("b".data) s ∧ allDigits (s.drop 1) then some ("b".data, strToNat (s.drop 1))
  else none

/-- The trailing `.postN` / `.devN` segments (in canonical order). -/
def parseTailSegs : List Str → Option (Option Nat × Option Nat)
  | [] => some (none, none)
  | [s] =>
    if leadsWith ("post".data) s ∧ allDigits (s.drop 4) then
      some (some (strToNat (s.drop 4)), none)
    else if leadsWith ("dev".data) s ∧ allDigits (s.drop 3) then
      some (none, some (strToNat (s.drop 3)))
    else none
  | [s, t] =>
    if leadsWith ("post".data) s ∧ allDigits (s.drop 4) ∧
        leadsWith ("dev".data) t ∧ allDigits (t.drop 3) then
      some (some (strToNat (s.drop 4)), some (strToNat (t.drop 3)))
    else none
  | _ => none

/-- The dot-separated segments after the epoch: release components, an
optional pre-release marker attached to the last one, then post/dev tails. -/
def parseRelSegs : List Str → Option (List Nat × Option (Str × Nat) × Option Nat × Option Nat)
  | [] => none
  | s :: rest =>
    if allDigits s then
      match rest with
      | [] => some ([strToNat s], none, none, none)
      | _ :: _ =>
        match parseRelSegs rest with
        | some (rel, pre, post, dev) => some (strToNat s :: rel, pre, post, dev)
        | none =>
          match parseTailSegs rest with
          | some (post, dev) => some ([strToNat s], none, post, dev)
          | none => none
    else
      match grabNum s with
      | some (n, p) =>
        match parsePreSeg p with
        | some pre =>
          match parseTailSegs rest with
          | some (post, dev) => some ([n], some pre, post, dev)
          | none => none
        | none => none
      | none => none

/-- Modelled from the external `packaging.version.Version` constructor, on
canonically spelled versions `[N!]N(.N)*[{a|b|rc}N][.postN][.devN]`
(`InvalidVersion` is `none`). -/
def parse440 (s : Str) : Option Pep440 :=
  let (ep, s1) :=
    match grabNum s with
    | some (n, '!' :: r) => (n, r)
    | _ => ((0 : Nat), s)
  match parseRelSegs (splitDot s1) with
  | some (rel, pre, post, dev) => some ⟨ep, rel, pre, post, dev⟩
  | none => none

/-- Release key: trailing zeros are ignored by the library's comparison. -/
def dropTrailZeros (l : List Nat) : List Nat := (l.reverse.dropWhile (· = 0)).reverse

/-- Python tuple comparison of number lists. -/
def listNatCmp : List Nat → List Nat → Ordering
  | [], [] => .eq
  | [], _ :: _ => .lt
  | _ :: _, [] => .gt
  | a :: as, b :: bs =>
    if a < b then .lt else if b < a then .gt else listNatCmp as bs

/-- Python string comparison (by code point). -/
def strCmp : Str → Str → Ordering
  | [], [] => .eq
  | [], _ :: _ => .lt
  | _ :: _, [] => .gt
  | a :: as, b :: bs =>
    if a < b then .lt else if b < a then .gt else strCmp as bs

/-- The pre-release comparison key of the library's `_cmpkey`:
`-inf` for a dev release with no pre/post, `+inf` for a final release,
otherwise the (letter, number) pair. -/
inductive PreK where
  | negInf
  | pv (letter : Str) (n : Nat)
  | inf
deriving DecidableEq

/-- `_cmpkey`'s pre component. -/
def preKOf (v : Pep440) : PreK :=
  if v.pre.isNone ∧ v.post.isNone ∧ ¬ v.dev.isNone then .negInf
  else
    match v.pre with
    | none => .inf
    | some (l, n) => .pv l n

/-- Order on the pre component. -/
def preKCmp : PreK → PreK → Ordering
  | .negInf, .negInf => .eq
  | .negInf, _ => .lt
  | _, .negInf => .gt
  | .inf, .inf => .eq
  | _, .inf => .lt
  | .inf, _ => .gt
  | .pv l n, .pv l2 n2 => (strCmp l l2).then (compare n n2)

/-- `_cmpkey`'s post component: absent compares below any present value. -/
def postCmp : Option Nat → Option Nat → Ordering
  | none, none => .eq
  | none, some _ => .lt
  | some _, none => .gt
  | some a, some b => compare a b

/-- `_cmpkey`'s dev component: absent compares above any present value. -/
def devCmp : Option Nat → Option Nat → Ordering
  | none, none => .eq
  | none, some _ => .gt
  | some _, none => .lt
  | some a, some b => compare a b

/-- The library's total order on versions. -/
def pepCmp (x y : Pep440) : Ordering :=
  (compare x.epoch y.epoch).then
    ((listNatCmp (dropTrailZeros x.release) (dropTrailZeros y.release)).then
      ((preKCmp (preKOf x) (preKOf y)).then
        ((postCmp x.post y.post).then (devCmp x.dev y.dev))))

/-- Python `<` on versions. -/
def pepLt (x y : Pep440) : Bool := pepCmp x y == .lt

/-- Stable insertion into a sorted list (new elements go after equals). -/
def insSorted {α : Type} (lt : α → α → Bool) (x : α) : List α → List α
  | [] => [x]
  | y :: r => if lt x y then x :: y :: r else y :: insSorted lt x r

/-- Python `sorted` (a stable sort by `<`). -/
def pySorted {α : Type} (lt : α → α → Bool) (l : List α) : List α :=
  l.foldl (fun acc x => insSorted lt x acc) []

/-- The errors raised by the embedded `james.py` functions
(`JmesFunctionError` variants, `packaging`'s `InvalidVersion`, and `max` on
an empty sequence). -/
inductive JmesErr where
  | notZoned
  | mixesPrePostDev (v : Pep440)
  | invalidVersion (s : Str)
  | badPerArg (per : Str)
  | emptySequence
deriving DecidableEq

/-- Decimal rendering of a natural number. -/
def natStr (n : Nat) : Str := Nat.toDigits 10 n

/-- `packaging`'s `major`/`minor`/`micro`: the release component or 0. -/
def relComp (v : Pep440) (i : Nat) : Nat := v.release.getD i 0

/-- `_Utils.sanitize_pep440`: raises whenever *any* of pre/post/dev is
present (`if sum((has_pre, has_post, has_dev)):` is truthy for a sum of 1);
otherwise returns `[epoch!]major.minor.micro` (the pre/dev/post parts the
code would append are all empty on this path). -/
def sanitize_pep440 (v : Pep440) : Except JmesErr Str :=
  if v.pre.isSome || v.post.isSome || v.dev.isSome then
    .error (.mixesPrePostDev v)
  else
    let ep := if v.epoch ≠ 0 then natStr v.epoch ++ ['!'] else []
    .ok (ep ++ natStr (relComp v 0) ++ '.' :: natStr (relComp v 1) ++ '.' :: natStr (relComp v 2))

/-- Parses one version string, raising `InvalidVersion` on failure
(`Pep440(v)` in the source). -/
def parse440E (s : Str) : Except JmesErr Pep440 :=
  match parse440 s with
  | some p => .ok p
  | none => .error (.invalidVersion s)

/-- `TyrannoJmesFunctions.pep440_ascending`. -/
def pep440_ascending (versions : List Str) : Except JmesErr (List Str) :=
  match mapME parse440E versions with
  | .error e => .error e
  | .ok ps => mapME sanitize_pep440 (pySorted pepLt ps)

/-- Python `max` over versions (first of equal maxima). -/
def pyMaxPep (h : Pep440) (t : List Pep440) : Pep440 :=
  t.foldl (fun acc x => if pepLt acc x then x else acc) h

/-- `TyrannoJmesFunctions.pep440_max_per(versions, per)`: validates `per`,
then (the body is a `TODO` in the source) returns the sanitized global
maximum, with no grouping at all. -/
def pep440_max_per (versions : List Str) (per : Str) : Except JmesErr Str :=
  if ¬ (per = "major".data ∨ per = "minor".data ∨ per = "micro".data) then
    .error (.badPerArg per)
  else
    match mapME parse440E versions with
    | .error e => .error e
    | .ok [] => .error .emptySequence
    | .ok (h :: t) => sanitize_pep440 (pyMaxPep h t)

/-! ### `_Utils.format_dt` -/

/-- Modelled from the external `datetime`: the pieces of a zoned timestamp
that `format_dt` consumes — `tzname()` (`none` for a naive datetime) and the
`isoformat(sep, timespec)` rendering, carried as data. -/
structure PyDatetime where
  tzname : Option Str
  iso : Str

/-- `_Utils.UTC_NAMES`: "IANA timezones that are aliases for Etc/UTC". -/
def utcNames : List Str :=
  ["Etc/UTC".data, "Etc/Universal".data, "Etc/UCT".data, "Etc/Zulu".data]

/-- The literal `"Etc/"`. -/
def etcSlash : Str := "Etc/".data

/-- Python `str.removeprefix`. -/
def removePref (p s : Str) : Str := if leadsWith p s then s.drop p.length else s

/-- Python `str.replace(pat, rep)` (all non-overlapping occurrences, left to
right; the empty pattern does not occur here). -/
def replaceAll (pat rep : Str) : Str → Str
  | [] => []
  | c :: rest =>
    if ¬ pat.isEmpty ∧ leadsWith pat (c :: rest) then
      rep ++ replaceAll pat rep ((c :: rest).drop pat.length)
    else c :: replaceAll pat rep rest
termination_by s => s.length
decreasing_by
  all_goals simp_wf
  all_goals try simp only [List.length_drop, List.length_cons]
  all_goals first
    | omega
    | (rename_i hcond
       have hne : pat ≠ [] := by
         intro h0
         rw [h0] at hcond
         exact absurd rfl hcond.1
       have hlen : pat.length ≠ 0 := fun h0 => hne (List.length_eq_zero.mp h0)
       omega)

/-- `_Utils.format_dt(dt)`: error for a naive datetime; substitute `Z` for a
zero offset only when `dt.tzname().removeprefix("Etc/")` is in `UTC_NAMES`. -/
def format_dt (dt : PyDatetime) : Except JmesErr Str :=
  match dt.tzname with
  | none => .error .notZoned
  | some name =>
    let stamp := dt.iso
    if utcNames.contains (removePref etcSlash name) then
      .ok (replaceAll ("-00:00".data) ['Z'] (replaceAll ("+00:00".data) ['Z'] stamp))
    else .ok stamp

/-! ## Spec-side helper definitions used by the theorems -/

/-- The leaves of a dict as dotted keys, by direct concatenation (shown equal
to `leaves` on valid trees). -/
def joinedLeaves (d : Dict) : Dict :=
  (leafPaths d).map (fun pv => (joinP pv.1, pv.2))

/-- The dotted leaf keys of a dict. -/
def joinedKeys (d : Dict) : List Str := (joinedLeaves d).map Prod.fst

/-- All top-level keys of a dict are dot-free. -/
def keysDF (d : Dict) : Bool := d.all (fun kv => !containsDot kv.1)

/-- Is this node a branch (a Python `dict`)? -/
def isBranchB : Toml → Bool
  | .branch _ => true
  | _ => false

/-- Lookup along a segment path (descending through branches). -/
def getPath : Dict → List Str → Option Toml
  | _, [] => none
  | d, [k] => dlookup d k
  | d, k :: rest =>
    match dlookup d k with
    | some (.branch b) => getPath b rest
    | _ => none

/-- No two consecutive close braces anywhere in the string. -/
def ccFree : Str → Bool
  | [] => true
  | [_] => true
  | a :: b :: r => !(a = cbr && b = cbr) && ccFree (b :: r)

/-- The string contains no dollar sign. -/
def noDollar (s : Str) : Bool := s.all (· ≠ '$')

/-! ### Concrete inputs named by the claims -/

/-- The input lines of the spec's marker state machine example. -/
def exC1lines : List Str :=
  ["# ::tyranno:: '1'".data, "# ::tyranno:: '2'".data,
   "OLD1".data, "OLD2".data, "UNRELATED".data]

/-- A file that ends inside a marker block. -/
def exC8lines : List Str := ["# ::tyranno:: 'x'".data]

/-- A tree with the single leaf `a.b = "x"`. -/
def exTreeX : Dict := [("a".data, .branch [("b".data, .prim (.pStr ("x".data)))])]

/-- A tree with the single leaf `a.b = "y"`. -/
def exTreeY : Dict := [("a".data, .branch [("b".data, .prim (.pStr ("y".data)))])]

/-- The version list of the spec's sort example. -/
def exVersions : List Str :=
  ["1.0.0".data, "1.0.0rc1".data, "1.0.0.dev1".data, "1.0.0.post1".data]

/-- The version list of the spec's best-per-class example. -/
def exMaxVersions : List Str :=
  ["0.1.0".data, "0.2.0".data, "1.0.0".data, "1.5.0".data]

/-- An RFC 3339 stamp of an instant at offset `+00:00`. -/
def exStamp : Str := "2025-01-01T00:00:00+00:00".data

/-- The same stamp with `Z` substituted for the offset. -/
def exStampZ : Str := "2025-01-01T00:00:00Z".data

/-- A template whose single expression is the simple key `project.name`. -/
def exC6template : Str :=
  "version = ".data ++ '$' :: obr :: obr :: " project.name ".data ++ [cbr, cbr]

/-- A tree whose `a` is a leaf (so `a.b` fails with `TypeError`). -/
def exC7tree : Dict := [("a".data, .prim (.pInt 1))]

/-- A valid nested tree for the round-trip witness. -/
def exC9tree : Dict :=
  [("info".data, .branch
      [("pet".data, .branch
          [("genus".data, .prim (.pStr ("Felis".data))),
           ("species".data, .prim (.pStr ("catus".data)))])]),
   ("n".data, .prim (.pInt 3)),
   ("tags".data, .arr [.prim (.pStr ("a".data)), .prim (.pInt 2)])]

/-- A dotted mapping defining `a` as a scalar and `a.b` as a leaf. -/
def exC10dotted : Dict :=
  [("a".data, .prim (.pInt 1)), ("a.b".data, .prim (.pInt 2))]

/-! # Theorems

First the helper lemmas, then one theorem per claim (with witnesses and
counterexamples where required). -/

/-! ## The sync state machine collapses

From the initial state (`_template_rewind = -1`, empty buffer), the first
branch of `_next_line` (`> 0`) is skipped and the truthiness test
`elif self._template_rewind:` fires, which resets the state to the same
shape and emits nothing; so by induction the marker-matching and emitting
branches are unreachable for every input. -/

theorem runRange_stuck (search : Str → Option Toml) (tree : Dict) :
    ∀ (n : Nat) (st : SyncSt), st.template_rewind = -1 → st.templates = [] →
      ∃ st2, runRange search tree n st = .ok st2 ∧ st2.new_lines = st.new_lines := by
  intro n
  induction n with
  | zero => intro st h1 h2; exact ⟨st, rfl, rfl⟩
  | succ n ih =>
    intro st h1 h2
    rw [runRange, nextLine]
    simp [h1, h2, mapME]
    exact ih _ rfl rfl

/-- **C1.**  The claim says the engine passes ordinary lines through, emits
marker lines unchanged, and replaces exactly as many following lines as
there were markers.  In fact `SyncHelper.run` emits nothing at all: for
every input file (and every expression evaluator and tree), the produced
`new_lines` is empty — on the spec's example the output does not contain
`UNRELATED`, the marker lines, or the generated `1` and `2`. -/
theorem claim_C1 : ∀ (search : Str → Option Toml) (tree : Dict) (lines : List Str),
    (runSync search tree lines).map SyncSt.new_lines = .ok [] := by
  intro search tree lines
  obtain ⟨st2, hrun, hnl⟩ :=
    runRange_stuck search tree (lines ++ [[]]).length ⟨0, lines ++ [[]], [], [], -1, []⟩ rfl rfl
  rw [runSync]
  simp only [hrun, Except.map]
  simp [hnl]

/-- **C8.**  The claim says a file ending with a non-empty marker buffer
raises a malformed-block error.  `SyncHelper.run` raises nothing: on a file
consisting of a single marker line it completes normally (returning an
empty output); no malformed-block error exists anywhere in `sync.py`. -/
theorem claim_C8 : ∀ (search : Str → Option Toml) (tree : Dict),
    ∃ st, runSync search tree exC8lines = .ok st ∧ st.new_lines = [] := by
  intro search tree
  obtain ⟨st2, hrun, hnl⟩ :=
    runRange_stuck search tree (exC8lines ++ [[]]).length ⟨0, exC8lines ++ [[]], [], [], -1, []⟩
      rfl rfl
  rw [runSync]
  exact ⟨st2, hrun, by simpa using hnl⟩

/-- **C3.**  The claim says ascending sort of
`["1.0.0", "1.0.0rc1", "1.0.0.dev1", "1.0.0.post1"]` returns the sorted
list without raising.  In fact `pep440_ascending` raises: after sorting,
every version is passed through `sanitize_pep440`, whose condition
`if sum((has_pre, has_post, has_dev)):` is truthy whenever *any* of the
three segments is present, so the first sorted element `1.0.0.dev1` already
raises `JmesFunctionError` ("mixes pre, post, and/or dev numbers"). -/
theorem claim_C3 : pep440_ascending exVersions
    = .error (.mixesPrePostDev ⟨0, [1, 0, 0], none, none, some 1⟩) := by
  rfl

/-- **C4.**  The claim says the best-version-per-class reduction groups by
(epoch, major) — or (epoch, major.minor) for 0.x — and keeps each group's
maximum, yielding `{"0.2.0", "1.5.0"}` on the example.  In fact
`pep440_max_per` (a `TODO` in the source) ignores the grouping argument
entirely and returns only the sanitized global maximum `"1.5.0"`, whatever
the `per` argument is; `"0.2.0"` is never produced. -/
theorem claim_C4 :
    pep440_max_per exMaxVersions ("major".data) = .ok ("1.5.0".data)
    ∧ pep440_max_per exMaxVersions ("minor".data) = .ok ("1.5.0".data)
    ∧ pep440_max_per exMaxVersions ("micro".data) = .ok ("1.5.0".data) :=
  ⟨rfl, rfl, rfl⟩

/-- **C5.**  The claim says formatting yields a `Z`-suffixed string exactly
when the zone is a recognized UTC alias.  In fact the substitution condition
`dt.tzname().removeprefix("Etc/") in UTC_NAMES` can never hold for a
recognized alias: every member of `UTC_NAMES` starts with `"Etc/"`, so
stripping that from any member leaves a string outside the set (first
conjunct).  Concretely, a timestamp whose `tzname()` is `"Etc/UTC"` (or the
`"UTC"` that `zoneinfo` actually reports for UTC-alias zones) keeps its
`+00:00` offset; only absurd names like `"Etc/Etc/UTC"` trigger the `Z`
substitution. -/
theorem claim_C5 :
    (utcNames.all (fun n => !(utcNames.contains (removePref etcSlash n))) = true)
    ∧ format_dt ⟨some ("Etc/UTC".data), exStamp⟩ = .ok exStamp
    ∧ format_dt ⟨some ("UTC".data), exStamp⟩ = .ok exStamp
    ∧ format_dt ⟨some ("Etc/Etc/UTC".data), exStamp⟩ = .ok exStampZ := by
  refine ⟨rfl, rfl, rfl, ?_⟩
  simp [format_dt, utcNames, removePref, etcSlash, leadsWith, replaceAll, exStamp, exStampZ]

/-- **C2 (claim evaluated on the code).**  Under policy `"if_values_match"`,
merging trees whose shared leaf `a.b` holds the distinct values `"x"` and
`"y"` raises nothing and silently keeps the rightmost value: the conflict
branch compares `replace` against the literal `"same_value"`, which the
`Literal["always", "if_values_match", "never"]` parameter can never equal,
so it is dead code.  Policies `"always"` (rightmost wins) and `"never"`
(error on any shared leaf, even with equal values, carrying the shared path
and its values) behave as claimed. -/
theorem claim_C2 :
    merge_leaves [exTreeX, exTreeY] ifValuesMatchStr
      = .ok [("a".data, .branch [("b".data, .prim (.pStr ("y".data)))])]
    ∧ merge_leaves [exTreeX, exTreeY] alwaysStr
      = .ok [("a".data, .branch [("b".data, .prim (.pStr ("y".data)))])]
    ∧ merge_leaves [exTreeX, exTreeX] neverStr
      = .error (.leafIntersectionError
          [("a.b".data, [.prim (.pStr ("x".data)), .prim (.pStr ("x".data))])]) := by
  refine ⟨?_, ?_, ?_⟩ <;>
    simp [merge_leaves, exTreeX, exTreeY, leaves, leavesAux, updAll, dset, dlookup,
      leaf_intersection, ifValuesMatchStr, alwaysStr, neverStr, sameValueStr, from_dotted,
      nest, nestMany, nest1, nestCheck, nestBranch, nestLeaf, dotSplit1, tag, merge_lists]

/-- **C7 (counterexample).**  The claim says `get(path, default)` never
raises and returns the default whenever `access(path)` would fail.  On the
tree `{"a": 1}` and path `"a.b"`, `access` fails (the intermediate node `a`
is not a branch), yet `get` does not return the default: it propagates the
`TypeError`, because `get` catches only `KeyError`. -/
theorem claim_C7_counterexample :
    (∃ e, access exC7tree ("a.b".data) = .error e)
    ∧ get exC7tree ("a.b".data) none = .error (.notObject ["a".data] ("b".data)) :=
  ⟨⟨.notObject ["a".data] ("b".data), rfl⟩, rfl⟩

/-- **C7 (amended).**  `get(path, default)` returns the default exactly for
the `KeyError` failures of `access` (absent key); when an intermediate node
along the path is not a branch, `access`'s `TypeError` propagates out of
`get` instead of being replaced by the default. -/
theorem claim_C7 : ∀ (tree : Dict) (keys : Str) (default : Option Toml)
    (seen : List Str) (k : Str),
    (access tree keys = .error (.noSuchKey seen k) → get tree keys default = .ok default)
    ∧ (access tree keys = .error (.notObject seen k) →
        get tree keys default = .error (.notObject seen k)) := by
  intro tree keys default seen k
  constructor <;> intro h <;> simp [get, h]

/-- **C7 (witness).**  The amended claim at concrete inputs: an absent key
yields the default, a non-branch intermediate node propagates the error. -/
theorem claim_C7_witness :
    get [] ("x".data) (some (.prim (.pInt 7))) = .ok (some (.prim (.pInt 7)))
    ∧ get exC7tree ("a.b".data) none = .error (.notObject ["a".data] ("b".data)) :=
  ⟨(claim_C7 [] ("x".data) (some (.prim (.pInt 7))) [] ("x".data)).1 rfl,
   (claim_C7 exC7tree ("a.b".data) none ["a".data] ("b".data)).2 rfl⟩

/-! ## C6: unresolvable expressions fail loudly -/

/-- `findClose` finds exactly the first double close brace. -/
theorem findClose_concat : ∀ (body post : Str), ccFree (body ++ [cbr]) = true →
    findClose (body ++ cbr :: cbr :: post) = some (body, post) := by
  intro body
  induction body with
  | nil =>
    intro post h
    simp only [List.nil_append]
    rw [findClose]
    simp
  | cons c body2 ih =>
    intro post h
    cases body2 with
    | nil =>
      have hc : ¬ c = cbr := by
        intro hcc
        subst hcc
        simp only [List.cons_append, List.nil_append] at h
        rw [ccFree] at h
        simp at h
      simp only [List.cons_append, List.nil_append]
      rw [findClose]
      rw [if_neg (by simp [hc])]
      rw [findClose]
      simp
    | cons b r =>
      have hc : ¬ (c = cbr ∧ b = cbr) := by
        rintro ⟨rfl, rfl⟩
        simp only [List.cons_append] at h
        rw [ccFree] at h
        simp at h
      have htail : ccFree (b :: r ++ [cbr]) = true := by
        simp only [List.cons_append] at h ⊢
        rw [ccFree] at h
        simp at h
        simp [h.2]
      have ih2 := ih post htail
      simp only [List.cons_append] at ih2 ⊢
      rw [findClose]
      rw [if_neg hc]
      rw [ih2]
      simp

/-- The first `EXPR_REGEX` match of a well-delimited template. -/
theorem splitFirstExpr_concat : ∀ (pre body post : Str),
    noDollar pre = true → ccFree (body ++ [cbr]) = true →
    splitFirstExpr (pre ++ '$' :: obr :: obr :: body ++ cbr :: cbr :: post)
      = some (pre, body, post) := by
  intro pre
  induction pre with
  | nil =>
    intro body post hd hcc
    simp only [List.nil_append, List.cons_append]
    rw [splitFirstExpr]
    rw [if_pos ?hcpos]
    case hcpos =>
      exact ⟨rfl, by simp [leadsWith]⟩
    have hfc := findClose_concat body post hcc
    simp only [List.drop]
    rw [hfc]
  | cons c pre2 ih =>
    intro body post hd hcc
    have hc : ¬ c = '$' := by
      simp [noDollar] at hd
      exact hd.1
    have hnd2 : noDollar pre2 = true := by
      simp [noDollar] at hd ⊢
      exact hd.2
    simp only [List.cons_append]
    rw [splitFirstExpr]
    rw [if_neg (by simp [hc])]
    have ih2 := ih body post hnd2 hcc
    rw [ih2]
    simp

/-- **C6.**  An expression that references an absent path makes the rewrite
of the whole template raise, never substituting an empty string: if the
(stripped and rewritten) expression is a simple dotted key on which
`DotTree.access` fails, the `KeyError`/`TypeError` propagates; if it is a
general query expression for which the JMESPath evaluator finds no match
(returns `None`), `re.sub` raises a `TypeError` because the replacement is
not a string. -/
theorem claim_C6 : ∀ (search : Str → Option Toml) (tree : Dict) (pre body post : Str),
    noDollar pre = true → ccFree (body ++ [cbr]) = true →
    ((simpleKeyFull (rewriteExpr body []) = true
        ∧ ∃ er, access tree (rewriteExpr body []) = .error er)
      ∨ (simpleKeyFull (rewriteExpr body []) = false
        ∧ search (rewriteExpr body []) = none)) →
    ∃ perr, replace_vars_in search tree
      (pre ++ '$' :: obr :: obr :: body ++ cbr :: cbr :: post) [] = .error perr := by
  intro search tree pre body post hpre hcc habs
  have hsplit := splitFirstExpr_concat pre body post hpre hcc
  rw [replace_vars_in]
  rw [hsplit]
  rcases habs with ⟨hsimple, er, her⟩ | ⟨hns, hnone⟩
  · refine ⟨.accessError er, ?_⟩
    simp [expand_var, hsimple, her]
  · refine ⟨.reSubTypeError, ?_⟩
    simp [expand_var, hns, hnone, pyStr?]

/-- **C6 (witness).**  The template `version = <marker>project.name<end>`
over the empty tree: the simple key `project.name` is absent, and the
rewrite raises. -/
theorem claim_C6_witness :
    ∃ perr, replace_vars_in (fun _ => none) [] exC6template [] = .error perr := by
  have h := claim_C6 (fun _ => none) [] ("version = ".data) (" project.name ".data) []
    (by decide) (by decide)
    (Or.inl ⟨by decide, ⟨.noSuchKey [] ("project".data), by rfl⟩⟩)
  simpa [exC6template] using h

/-! ## Dict and split lemmas -/

theorem dlookup_dset_self : ∀ (d : Dict) (k : Str) (x : Toml),
    dlookup (dset d k x) k = some x := by
  intro d k x
  induction d with
  | nil => simp [dset, dlookup]
  | cons kv r ih =>
    obtain ⟨k2, v2⟩ := kv
    by_cases hk : k2 = k
    · simp [dset, dlookup, hk]
    · simp [dset, dlookup, hk, ih]

theorem dlookup_dset_ne : ∀ (d : Dict) (k q : Str) (x : Toml), q ≠ k →
    dlookup (dset d k x) q = dlookup d q := by
  intro d k q x hne
  have hkq : ¬ (k = q) := fun h => hne h.symm
  induction d with
  | nil => simp [dset, dlookup, hkq]
  | cons kv r ih =>
    obtain ⟨k2, v2⟩ := kv
    by_cases hk : k2 = k
    · subst hk
      simp [dset, dlookup, hkq]
    · simp only [dset, if_neg hk]
      by_cases hq : k2 = q
      · simp [dlookup, hq]
      · simp [dlookup, hq, ih]

theorem getPath_dset_ne (d : Dict) (k q : Str) (x : Toml) (rest : List Str) (hne : q ≠ k) :
    getPath (dset d k x) (q :: rest) = getPath d (q :: rest) := by
  cases rest with
  | nil => rw [getPath, getPath, dlookup_dset_ne d k q x hne]
  | cons y r =>
    rw [getPath, getPath, dlookup_dset_ne d k q x hne] <;> simp

theorem splitDot_ne_nil : ∀ (s : Str), splitDot s ≠ [] := by
  intro s
  cases s with
  | nil => simp [splitDot]
  | cons c r =>
    rw [splitDot]
    by_cases hc : c = '.'
    · simp [hc]
    · simp only [hc, if_false, if_neg hc]
      cases h : splitDot r with
      | nil => simp
      | cons s2 ss => simp

theorem splitDot_append : ∀ (a b : Str), splitDot (a ++ '.' :: b) = splitDot a ++ splitDot b := by
  intro a b
  induction a with
  | nil => rw [List.nil_append, splitDot]; simp [splitDot]
  | cons c a2 ih =>
    rw [List.cons_append, splitDot]
    by_cases hc : c = '.'
    · rw [if_pos hc, ih, splitDot, if_pos hc]
      simp
    · rw [if_neg hc, ih]
      rw [splitDot, if_neg hc]
      cases h : splitDot a2 with
      | nil => exact absurd h (splitDot_ne_nil a2)
      | cons s2 ss => simp

/-- When the key has no dot, `split(".", 1)` finds nothing and
`split(".")` is the singleton. -/
theorem splitDot_of_split1_none : ∀ (key : Str), dotSplit1 key = none →
    splitDot key = [key] := by
  intro key
  induction key with
  | nil => intro h; rfl
  | cons c r ih =>
    intro h
    rw [dotSplit1] at h
    by_cases hc : c = '.'
    · simp [hc] at h
    · rw [if_neg hc] at h
      rw [splitDot, if_neg hc]
      cases hr : dotSplit1 r with
      | some p => rw [hr] at h; simp at h
      | none =>
        rw [ih hr]

/-- `split(".")` refines `split(".", 1)`. -/
theorem splitDot_of_split1_some : ∀ (key hd tl : Str), dotSplit1 key = some (hd, tl) →
    splitDot key = hd :: splitDot tl := by
  intro key
  induction key with
  | nil => intro hd tl h; simp [dotSplit1] at h
  | cons c r ih =>
    intro hd tl h
    rw [dotSplit1] at h
    by_cases hc : c = '.'
    · rw [if_pos hc] at h
      simp at h
      rw [splitDot, if_pos hc, ← h.1, ← h.2]
    · rw [if_neg hc] at h
      cases hr : dotSplit1 r with
      | none => rw [hr] at h; simp at h
      | some p =>
        rw [hr] at h
        simp at h
        rw [splitDot, if_neg hc, ih p.1 p.2 (by rw [hr])]
        rw [← h.2, ← h.1]

/-- A non-dict value does not carry the dict type tag. -/
theorem tag_ne_dict_of_nonbranch (item : Toml) (h : isBranchB item = false) :
    ¬ tag item = Tag.tDict := by
  cases item with
  | prim p => cases p <;> simp [tag]
  | arr l => simp [tag]
  | branch d => simp [isBranchB] at h

/-- With a non-dict item, finding anything at `key` makes `_nest_check`
raise (dict-with-dict is the only silently merged combination, list-merge
being disabled). -/
theorem nestCheck_found_nonbranch (t : Dict) (key : Str) (item w : Toml)
    (hitem : isBranchB item = false) (hfound : dlookup t key = some w) :
    nestCheck t key item = .error (.duplicateKey key) := by
  have hne := tag_ne_dict_of_nonbranch item hitem
  have hcond0 := hfound
  rw [nestCheck, hfound]
  have hcond : ((tag w != tag item) ||
      (!(tag w == Tag.tDict) && !(tag w == Tag.tList)) ||
      ((tag w == Tag.tList) && !merge_lists)) = true := by
    cases htw : tag w <;> cases hti : tag item <;>
      first
        | decide
        | exact absurd hti hne
  simp [hcond]

/-- `nestCheck` only ever raises `DuplicateKeyError`. -/
theorem nestCheck_err (t : Dict) (key : Str) (item : Toml) (e : NestErr)
    (h : nestCheck t key item = .error e) : e = .duplicateKey key := by
  rw [nestCheck] at h
  cases hl : dlookup t key with
  | none => rw [hl] at h; simp at h
  | some w =>
    rw [hl] at h
    split at h
    · exact absurd h (by simp)
    · split at h
      · injection h with h2
        exact h2.symm
      · exact absurd h (by simp)

/-! ## Inserting a leaf into a trie: creation, preservation, error kinds -/

/-- Unfolding `getPath` on a single-segment path. -/
theorem getPath_single (d : Dict) (k : Str) : getPath d [k] = dlookup d k := rfl

/-- Unfolding `getPath` on a multi-segment path. -/
theorem getPath_cons_cons (d : Dict) (k y : Str) (r : List Str) :
    getPath d (k :: y :: r) =
      match dlookup d k with
      | some (.branch b) => getPath b (y :: r)
      | _ => none := rfl

/-- Successfully nesting a non-dict item stores it at the split path. -/
theorem nest1_creates : ∀ (n : Nat) (key : Str), key.length < n →
    ∀ (t : Dict) (item : Toml) (t2 : Dict), isBranchB item = false →
    nest1 t key item = .ok t2 → getPath t2 (splitDot key) = some item := by
  intro n
  induction n with
  | zero => intro key hlen; exact absurd hlen (Nat.not_lt_zero _)
  | succ n ih =>
    intro key hlen t item t2 hitem hok
    rw [nest1] at hok
    split at hok
    · exact absurd hok (by simp)
    · split at hok
      · rename_i hd tl heq
        rw [splitDot_of_split1_some key hd tl heq]
        have htl : tl.length < n := by
          have := dotSplit1_tl_lt key hd tl heq
          omega
        obtain ⟨y, r, hyr⟩ : ∃ y r, splitDot tl = y :: r := by
          cases hsd : splitDot tl with
          | nil => exact absurd hsd (splitDot_ne_nil tl)
          | cons y r => exact ⟨y, r, rfl⟩
        rw [nestBranch] at hok
        split at hok
        · rename_i b hb
          split at hok
          · rename_i b2 hb2
            injection hok with hok2
            subst hok2
            rw [hyr, getPath_cons_cons, dlookup_dset_self]
            show getPath b2 (y :: r) = some item
            rw [← hyr]
            exact ih tl htl b item b2 hitem hb2
          · exact absurd hok (by simp)
        · exact absurd hok (by simp)
        · split at hok
          · rename_i b2 hb2
            injection hok with hok2
            subst hok2
            rw [hyr, getPath_cons_cons, dlookup_dset_self]
            show getPath b2 (y :: r) = some item
            rw [← hyr]
            exact ih tl htl [] item b2 hitem hb2
          · exact absurd hok (by simp)
      · rename_i heq
        rw [splitDot_of_split1_none key heq]
        cases item with
        | branch kvs => simp [isBranchB] at hitem
        | prim p =>
          rw [nestLeaf] at hok
          · simp at hok
            subst hok
            rw [getPath_single, dlookup_dset_self]
          · simp
        | arr l =>
          rw [nestLeaf] at hok
          · simp at hok
            subst hok
            rw [getPath_single, dlookup_dset_self]
          · simp

/-- Successfully nesting a non-dict item preserves every existing leaf. -/
theorem nest1_preserves : ∀ (n : Nat) (key : Str), key.length < n →
    ∀ (t : Dict) (item : Toml) (t2 : Dict), isBranchB item = false →
    nest1 t key item = .ok t2 →
    ∀ (p : List Str) (w : Toml), isBranchB w = false → getPath t p = some w →
    getPath t2 p = some w := by
  intro n
  induction n with
  | zero => intro key hlen; exact absurd hlen (Nat.not_lt_zero _)
  | succ n ih =>
    intro key hlen t item t2 hitem hok
    rw [nest1] at hok
    split at hok
    · exact absurd hok (by simp)
    · rename_i hchk
      split at hok
      · rename_i hd tl heq
        have htl : tl.length < n := by
          have := dotSplit1_tl_lt key hd tl heq
          omega
        rw [nestBranch] at hok
        split at hok
        · rename_i b hb
          split at hok
          · rename_i b2 hb2
            injection hok with hok2
            subst hok2
            intro p w hwb hwp
            cases p with
            | nil => simp [getPath] at hwp
            | cons q rest =>
              by_cases hq : q = hd
              · subst hq
                cases rest with
                | nil =>
                  rw [getPath_single, hb] at hwp
                  injection hwp with hwp2
                  rw [← hwp2] at hwb
                  simp [isBranchB] at hwb
                | cons y r =>
                  rw [getPath_cons_cons, hb] at hwp
                  rw [getPath_cons_cons, dlookup_dset_self]
                  show getPath b2 (y :: r) = some w
                  exact ih tl htl b item b2 hitem hb2 (y :: r) w hwb hwp
              · rw [getPath_dset_ne t hd q (.branch b2) rest hq]
                exact hwp
          · exact absurd hok (by simp)
        · exact absurd hok (by simp)
        · rename_i hb
          split at hok
          · rename_i b2 hb2
            injection hok with hok2
            subst hok2
            intro p w hwb hwp
            cases p with
            | nil => simp [getPath] at hwp
            | cons q rest =>
              by_cases hq : q = hd
              · subst hq
                cases rest with
                | nil =>
                  rw [getPath_single, hb] at hwp
                  exact absurd hwp (by simp)
                | cons y r =>
                  rw [getPath_cons_cons, hb] at hwp
                  exact absurd hwp (by simp)
              · rw [getPath_dset_ne t hd q (.branch b2) rest hq]
                exact hwp
          · exact absurd hok (by simp)
      · rename_i heq
        have ht2 : t2 = dset t key item := by
          cases item with
          | branch kvs => simp [isBranchB] at hitem
          | prim p =>
            rw [nestLeaf] at hok
            · simp at hok
              exact hok.symm
            · simp
          | arr l =>
            rw [nestLeaf] at hok
            · simp at hok
              exact hok.symm
            · simp
        subst ht2
        have hnone : dlookup t key = none := by
          cases hf : dlookup t key with
          | none => rfl
          | some f =>
            have := nestCheck_found_nonbranch t key item f hitem hf
            rw [this] at hchk
            exact absurd hchk (by simp)
        intro p w hwb hwp
        cases p with
        | nil => simp [getPath] at hwp
        | cons q rest =>
          by_cases hq : q = key
          · subst hq
            cases rest with
            | nil =>
              rw [getPath_single, hnone] at hwp
              exact absurd hwp (by simp)
            | cons y r =>
              rw [getPath_cons_cons, hnone] at hwp
              exact absurd hwp (by simp)
          · rw [getPath_dset_ne t key q item rest hq]
            exact hwp

/-- With non-dict items, every nesting failure is a `DuplicateKeyError`. -/
theorem nest1_err_dup : ∀ (n : Nat) (key : Str), key.length < n →
    ∀ (t : Dict) (item : Toml) (e : NestErr), isBranchB item = false →
    nest1 t key item = .error e → ∃ k, e = .duplicateKey k := by
  intro n
  induction n with
  | zero => intro key hlen; exact absurd hlen (Nat.not_lt_zero _)
  | succ n ih =>
    intro key hlen t item e hitem herr
    rw [nest1] at herr
    split at herr
    · rename_i e0 hchk
      injection herr with h2
      subst h2
      exact ⟨key, nestCheck_err t key item e0 hchk⟩
    · split at herr
      · rename_i hd tl heq
        have htl : tl.length < n := by
          have := dotSplit1_tl_lt key hd tl heq
          omega
        rw [nestBranch] at herr
        split at herr
        · rename_i b hb
          split at herr
          · exact absurd herr (by simp)
          · rename_i e1 he1
            injection herr with h2
            subst h2
            exact ih tl htl b item e1 hitem he1
        · injection herr with h2
          exact ⟨hd, h2.symm⟩
        · split at herr
          · exact absurd herr (by simp)
          · rename_i e1 he1
            injection herr with h2
            subst h2
            exact ih tl htl [] item e1 hitem he1
      · cases item with
        | branch kvs => simp [isBranchB] at hitem
        | prim p =>
          rw [nestLeaf] at herr
          · exact absurd herr (by simp)
          · simp
        | arr l =>
          rw [nestLeaf] at herr
          · exact absurd herr (by simp)
          · simp

/-- Folding insertions preserves existing leaves. -/
theorem nestMany_preserves : ∀ (xs : List (Str × Toml)) (t T : Dict),
    (∀ kv ∈ xs, isBranchB kv.2 = false) → nestMany t xs = .ok T →
    ∀ (p : List Str) (w : Toml), isBranchB w = false → getPath t p = some w →
    getPath T p = some w := by
  intro xs
  induction xs with
  | nil =>
    intro t T h hok p w hwb hwp
    rw [nestMany] at hok
    injection hok with h2
    subst h2
    exact hwp
  | cons kv rest ih =>
    intro t T hall hok p w hwb hwp
    obtain ⟨k, v⟩ := kv
    rw [nestMany] at hok
    split at hok
    · rename_i d2 hn
      have hkv : isBranchB v = false := hall (k, v) (by simp)
      have hpres := nest1_preserves (k.length + 1) k (by omega) t v d2 hkv hn p w hwb hwp
      exact ih d2 T (fun kv2 hm => hall kv2 (by simp [hm])) hok p w hwb hpres
    · exact absurd hok (by simp)

/-- If the whole fold succeeds, every inserted key names a leaf of the
final tree. -/
theorem nestMany_creates : ∀ (xs : List (Str × Toml)) (t T : Dict),
    (∀ kv ∈ xs, isBranchB kv.2 = false) → nestMany t xs = .ok T →
    ∀ kv ∈ xs, ∃ w, isBranchB w = false ∧ getPath T (splitDot kv.1) = some w := by
  intro xs
  induction xs with
  | nil => intro t T h hok kv hm; simp at hm
  | cons kv0 rest ih =>
    intro t T hall hok kv hm
    obtain ⟨k, v⟩ := kv0
    rw [nestMany] at hok
    split at hok
    · rename_i d2 hn
      have hkv : isBranchB v = false := hall (k, v) (by simp)
      rcases List.mem_cons.mp hm with hkv0 | hmr
      · subst hkv0
        refine ⟨v, hkv, ?_⟩
        have hcre := nest1_creates (k.length + 1) k (by omega) t v d2 hkv hn
        exact nestMany_preserves rest d2 T (fun kv2 hm2 => hall kv2 (by simp [hm2])) hok
          (splitDot k) v hkv hcre
      · exact ih d2 T (fun kv2 hm2 => hall kv2 (by simp [hm2])) hok kv hmr
    · exact absurd hok (by simp)

/-- With non-dict items, every fold failure is a `DuplicateKeyError`. -/
theorem nestMany_err_dup : ∀ (xs : List (Str × Toml)) (t : Dict) (e : NestErr),
    (∀ kv ∈ xs, isBranchB kv.2 = false) → nestMany t xs = .error e →
    ∃ k, e = .duplicateKey k := by
  intro xs
  induction xs with
  | nil => intro t e h herr; rw [nestMany] at herr; exact absurd herr (by simp)
  | cons kv rest ih =>
    intro t e hall herr
    obtain ⟨k, v⟩ := kv
    rw [nestMany] at herr
    split at herr
    · rename_i d2 hn
      exact ih d2 e (fun kv2 hm => hall kv2 (by simp [hm])) herr
    · rename_i e1 hn
      injection herr with h2
      subst h2
      exact nest1_err_dup (k.length + 1) k (by omega) t v e1 (hall (k, v) (by simp)) hn

/-- A leaf found below an extension of `p` forces a branch at `p`. -/
theorem getPath_append_branch : ∀ (p : List Str) (T : Dict) (q : List Str) (w : Toml),
    p ≠ [] → q ≠ [] → getPath T (p ++ q) = some w →
    ∃ b, getPath T p = some (.branch b) := by
  intro p
  induction p with
  | nil => intro T q w hp; exact absurd rfl hp
  | cons k p2 ih =>
    intro T q w hp hq hres
    cases p2 with
    | nil =>
      cases q with
      | nil => exact absurd rfl hq
      | cons y r =>
        simp only [List.singleton_append] at hres
        rw [getPath_cons_cons] at hres
        split at hres
        · rename_i b hb
          exact ⟨b, by rw [getPath_single]; exact hb⟩
        · exact absurd hres (by simp)
    | cons z p3 =>
      simp only [List.cons_append] at hres
      rw [getPath_cons_cons] at hres
      split at hres
      · rename_i b hb
        rw [← List.cons_append] at hres
        obtain ⟨b2, hb2⟩ := ih b q w (by simp) hq hres
        refine ⟨b2, ?_⟩
        rw [getPath_cons_cons, hb]
        exact hb2
      · exact absurd hres (by simp)

/-- **C10.**  A dotted-form mapping of leaves (the `Limb` input type of
`from_dotted`) in which some key is also used, extended by further
segments, as another key — e.g. a scalar at `a` together with a leaf at
`a.b` — makes `from_dotted` raise `DuplicateKeyError` (naming the offending
key segment); it can never return a tree.  No other error kind can be
raised on leaf-valued input, and the conflict is detected regardless of
where the two entries sit in the mapping. -/
theorem claim_C10 : ∀ (xs : Dict), (∀ kv ∈ xs, isBranchB kv.2 = false) →
    ∀ (k1 s : Str), k1 ∈ xs.map Prod.fst → (k1 ++ '.' :: s) ∈ xs.map Prod.fst →
    ∃ k, from_dotted xs = .error (.duplicateKey k) := by
  intro xs hvals k1 s h1 h2
  cases hres : nestMany [] xs with
  | ok T =>
    exfalso
    obtain ⟨kv1, hm1, hk1⟩ := List.mem_map.mp h1
    obtain ⟨kv2, hm2, hk2⟩ := List.mem_map.mp h2
    obtain ⟨w1, hw1b, hw1⟩ := nestMany_creates xs [] T hvals hres kv1 hm1
    obtain ⟨w2, hw2b, hw2⟩ := nestMany_creates xs [] T hvals hres kv2 hm2
    rw [hk1] at hw1
    rw [hk2] at hw2
    rw [splitDot_append] at hw2
    obtain ⟨b, hb⟩ := getPath_append_branch (splitDot k1) T (splitDot s) w2
      (splitDot_ne_nil k1) (splitDot_ne_nil s) hw2
    rw [hw1] at hb
    injection hb with hb2
    rw [hb2] at hw1b
    simp [isBranchB] at hw1b
  | error e =>
    obtain ⟨k, hk⟩ := nestMany_err_dup xs [] e hvals hres
    subst hk
    exact ⟨k, by rw [from_dotted, nest]; exact hres⟩

/-- **C10 (witness).**  `from_dotted({"a": 1, "a.b": 2})` raises
`DuplicateKeyError`. -/
theorem claim_C10_witness : ∃ k, from_dotted exC10dotted = .error (.duplicateKey k) :=
  claim_C10 exC10dotted (by decide) ("a".data) ("b".data) (by decide) (by decide)

/-! ## Further dict and dotted-string lemmas (for the round trip) -/

theorem dlookup_eq_none_iff : ∀ (d : Dict) (k : Str),
    dlookup d k = none ↔ k ∉ d.map Prod.fst := by
  intro d k
  induction d with
  | nil => simp [dlookup]
  | cons kv r ih =>
    obtain ⟨k2, v2⟩ := kv
    rw [dlookup]
    by_cases hk : k2 = k
    · subst hk
      simp
    · rw [if_neg hk, ih]
      simp only [List.map_cons, List.mem_cons]
      constructor
      · rintro h (hc | hc)
        · exact hk hc.symm
        · exact h hc
      · intro h hc
        exact h (Or.inr hc)

theorem dset_of_not_mem : ∀ (d : Dict) (k : Str) (x : Toml), k ∉ d.map Prod.fst →
    dset d k x = d ++ [(k, x)] := by
  intro d k x hmem
  induction d with
  | nil => simp [dset]
  | cons kv r ih =>
    obtain ⟨k2, v2⟩ := kv
    simp only [List.map_cons, List.mem_cons] at hmem
    push_neg at hmem
    rw [dset, if_neg (fun h => hmem.1 h.symm)]
    simp [ih hmem.2]

theorem dset_of_lookup_eq : ∀ (d : Dict) (k : Str) (x : Toml), dlookup d k = some x →
    dset d k x = d := by
  intro d k x h
  induction d with
  | nil => simp [dlookup] at h
  | cons kv r ih =>
    obtain ⟨k2, v2⟩ := kv
    by_cases hk : k2 = k
    · subst hk
      rw [dlookup, if_pos rfl] at h
      injection h with h2
      rw [dset, if_pos rfl, h2]
    · rw [dlookup, if_neg hk] at h
      rw [dset, if_neg hk, ih h]

theorem dset_dset : ∀ (d : Dict) (k : Str) (x y : Toml),
    dset (dset d k x) k y = dset d k y := by
  intro d k x y
  induction d with
  | nil => simp [dset]
  | cons kv r ih =>
    obtain ⟨k2, v2⟩ := kv
    by_cases hk : k2 = k
    · subst hk
      simp [dset]
    · simp [dset, hk, ih]

theorem dlookup_append_left_none : ∀ (d1 d2 : Dict) (q : Str), dlookup d1 q = none →
    dlookup (d1 ++ d2) q = dlookup d2 q := by
  intro d1 d2 q h
  induction d1 with
  | nil => simp
  | cons kv r ih =>
    obtain ⟨k2, v2⟩ := kv
    rw [dlookup] at h
    by_cases hk : k2 = q
    · rw [if_pos hk] at h; simp at h
    · rw [if_neg hk] at h
      rw [List.cons_append, dlookup, if_neg hk]
      exact ih h

theorem dset_append_last : ∀ (d : Dict) (k : Str) (x y : Toml), dlookup d k = none →
    dset (d ++ [(k, x)]) k y = d ++ [(k, y)] := by
  intro d k x y h
  induction d with
  | nil => simp [dset]
  | cons kv r ih =>
    obtain ⟨k2, v2⟩ := kv
    rw [dlookup] at h
    by_cases hk : k2 = k
    · rw [if_pos hk] at h; simp at h
    · rw [if_neg hk] at h
      rw [List.cons_append, dset, if_neg hk]
      simp [ih h]

/-- Unfolding `keysDF` on a cons. -/
theorem keysDF_cons (k : Str) (v : Toml) (r : Dict) :
    keysDF ((k, v) :: r) = (!containsDot k && keysDF r) := rfl

theorem keysDF_dset : ∀ (d : Dict) (k : Str) (x : Toml), keysDF d = true →
    containsDot k = false → keysDF (dset d k x) = true := by
  intro d k x hdf hk
  induction d with
  | nil => simp [dset, keysDF, hk]
  | cons kv r ih =>
    obtain ⟨k2, v2⟩ := kv
    rw [keysDF_cons] at hdf
    simp at hdf
    by_cases h2 : k2 = k
    · subst h2
      rw [dset, if_pos rfl, keysDF_cons]
      simp [hdf.1, hdf.2]
    · rw [dset, if_neg h2, keysDF_cons]
      simp [hdf.1]
      exact ih hdf.2

theorem containsDot_append_dot (k p : Str) : containsDot (k ++ '.' :: p) = true := by
  simp [containsDot]

theorem dlookup_dotted_none : ∀ (d : Dict) (q : Str), keysDF d = true →
    containsDot q = true → dlookup d q = none := by
  intro d q hdf hq
  induction d with
  | nil => simp [dlookup]
  | cons kv r ih =>
    obtain ⟨k2, v2⟩ := kv
    rw [keysDF_cons] at hdf
    simp at hdf
    rw [dlookup, if_neg ?hne]
    case hne =>
      intro h
      rw [h, hq] at hdf
      simp at hdf
    exact ih hdf.2

theorem dotSplit1_none_of_dotfree : ∀ (k : Str), containsDot k = false →
    dotSplit1 k = none := by
  intro k h
  induction k with
  | nil => rfl
  | cons c r ih =>
    simp [containsDot] at h
    rw [dotSplit1, if_neg h.1, ih (by simp [containsDot]; exact h.2)]

theorem dotSplit1_dotfree_append : ∀ (k p : Str), containsDot k = false →
    dotSplit1 (k ++ '.' :: p) = some (k, p) := by
  intro k p h
  induction k with
  | nil => simp [dotSplit1]
  | cons c r ih =>
    simp [containsDot] at h
    rw [List.cons_append, dotSplit1, if_neg h.1, ih (by simp [containsDot]; exact h.2)]

theorem joinP_cons_ne_nil (k : Str) (p : List Str) (h : p ≠ []) :
    joinP (k :: p) = k ++ '.' :: joinP p := by
  cases p with
  | nil => exact absurd rfl h
  | cons y r => rfl

/-- Two dot-free strings followed by dots and arbitrary tails are equal only
componentwise. -/
theorem dot_append_inj : ∀ (a b x y : Str), containsDot a = false → containsDot b = false →
    a ++ '.' :: x = b ++ '.' :: y → a = b ∧ x = y := by
  intro a
  induction a with
  | nil =>
    intro b x y ha hb h
    cases b with
    | nil => simpa using h
    | cons c b2 =>
      simp at h
      simp [containsDot, ← h.1] at hb
  | cons c a2 ih =>
    intro b x y ha hb h
    cases b with
    | nil =>
      simp at h
      simp [containsDot, h.1] at ha
    | cons c2 b2 =>
      simp at h
      simp [containsDot] at ha hb
      obtain ⟨h1, h2⟩ := ih b2 x y (by simp [containsDot]; exact ha.2) (by simp [containsDot]; exact hb.2) h.2
      exact ⟨by simp [h.1, h1], h2⟩

/-- A dot-free string never equals a string with a dot appended inside. -/
theorem dotfree_ne_dotted (a b x : Str) (ha : containsDot a = false) : a ≠ b ++ '.' :: x := by
  intro h
  rw [h] at ha
  rw [containsDot_append_dot] at ha
  exact absurd ha (by simp)

/-! ## Shapes of leaf paths and distinctness of dotted leaf keys -/

theorem leafPaths_nil : leafPaths [] = [] := by rw [leafPaths]

theorem leafPaths_cons_branch (k : Str) (sub rest : Dict) :
    leafPaths ((k, .branch sub) :: rest)
      = (leafPaths sub).map (fun pv => (k :: pv.1, pv.2)) ++ leafPaths rest := by
  rw [leafPaths]

theorem leafPaths_cons_leaf (k : Str) (v : Toml) (rest : Dict) (hv : isBranchB v = false) :
    leafPaths ((k, v) :: rest) = ([k], v) :: leafPaths rest := by
  cases v with
  | branch sub => simp [isBranchB] at hv
  | prim p =>
    rw [leafPaths]
    simp
  | arr l =>
    rw [leafPaths]
    simp

theorem validKey_dotfree (k : Str) (h : validKey k = true) : containsDot k = false := by
  simp [validKey] at h
  exact h.2

theorem validD_cons (k : Str) (v : Toml) (rest : Dict) (h : validD ((k, v) :: rest) = true) :
    validKey k = true ∧ validT v = true ∧ k ∉ rest.map Prod.fst ∧ validD rest = true := by
  rw [validD] at h
  simp at h
  obtain ⟨⟨⟨h1, h2⟩, h3⟩, h4⟩ := h
  refine ⟨h1, h2, ?_, h4⟩
  intro hmem
  obtain ⟨kv, hkv, hfst⟩ := List.mem_map.mp hmem
  exact absurd hfst (h3 kv.1 kv.2 (by simpa using hkv))

theorem validT_branch (d : Dict) : validT (.branch d) = validD d := by rw [validT]

theorem joinedKeys_eq (d : Dict) :
    joinedKeys d = (leafPaths d).map (fun pv => joinP pv.1) := by
  simp [joinedKeys, joinedLeaves]

/-- Every leaf path of a valid dict starts with a top-level key and has only
valid segments. -/
theorem leafPaths_shape : ∀ (n : Nat) (d : Dict), sizeOf d < n → validD d = true →
    ∀ pv ∈ leafPaths d,
      (∃ k0 p2, pv.1 = k0 :: p2 ∧ k0 ∈ d.map Prod.fst)
      ∧ ∀ s2 ∈ pv.1, validKey s2 = true := by
  intro n
  induction n with
  | zero => intro d h; exact absurd h (Nat.not_lt_zero _)
  | succ n ih =>
    intro d hsz hval pv hm
    cases d with
    | nil => rw [leafPaths_nil] at hm; simp at hm
    | cons kv rest =>
      obtain ⟨k, v⟩ := kv
      obtain ⟨hk, hv, hnk, hrest⟩ := validD_cons k v rest hval
      have hszr : sizeOf rest < n := by
        have : sizeOf rest < sizeOf ((k, v) :: rest) := by simp <;> omega
        omega
      cases v with
      | branch sub =>
        rw [leafPaths_cons_branch] at hm
        rcases List.mem_append.mp hm with hm1 | hm2
        · obtain ⟨q, hq, hqe⟩ := List.mem_map.mp hm1
          have hszs : sizeOf sub < n := by
            have : sizeOf sub < sizeOf ((k, Toml.branch sub) :: rest) := by simp; omega
            omega
          have hvs : validD sub = true := by rw [validT_branch] at hv; exact hv
          have := ih sub hszs hvs q hq
          refine ⟨⟨k, q.1, ?_, by simp⟩, ?_⟩
          · rw [← hqe]
          · intro s2 hs2
            rw [← hqe] at hs2
            simp at hs2
            rcases hs2 with hs2 | hs2
            · rw [hs2]; exact hk
            · exact this.2 s2 hs2
        · obtain ⟨⟨k0, p2, he, hmem⟩, hsegs⟩ := ih rest hszr hrest pv hm2
          exact ⟨⟨k0, p2, he, by simp [hmem]⟩, hsegs⟩
      | prim p =>
        rw [leafPaths_cons_leaf k _ rest (by simp [isBranchB])] at hm
        rcases List.mem_cons.mp hm with hm1 | hm2
        · subst hm1
          exact ⟨⟨k, [], rfl, by simp⟩, by intro s2 hs2; simp at hs2; rw [hs2]; exact hk⟩
        · obtain ⟨⟨k0, p2, he, hmem⟩, hsegs⟩ := ih rest hszr hrest pv hm2
          exact ⟨⟨k0, p2, he, by simp [hmem]⟩, hsegs⟩
      | arr l =>
        rw [leafPaths_cons_leaf k _ rest (by simp [isBranchB])] at hm
        rcases List.mem_cons.mp hm with hm1 | hm2
        · subst hm1
          exact ⟨⟨k, [], rfl, by simp⟩, by intro s2 hs2; simp at hs2; rw [hs2]; exact hk⟩
        · obtain ⟨⟨k0, p2, he, hmem⟩, hsegs⟩ := ih rest hszr hrest pv hm2
          exact ⟨⟨k0, p2, he, by simp [hmem]⟩, hsegs⟩

/-- A dotted key of a valid dict decomposes over a top-level key. -/
theorem mem_joinedKeys_split (d : Dict) (x : Str) (hval : validD d = true)
    (hm : x ∈ joinedKeys d) :
    ∃ q0, q0 ∈ d.map Prod.fst ∧ validKey q0 = true ∧
      (x = q0 ∨ ∃ y, x = q0 ++ '.' :: y) := by
  rw [joinedKeys_eq] at hm
  obtain ⟨pv, hpv, hpe⟩ := List.mem_map.mp hm
  obtain ⟨⟨k0, p2, he, hmem⟩, hsegs⟩ := leafPaths_shape (sizeOf d + 1) d (by omega) hval pv hpv
  refine ⟨k0, hmem, hsegs k0 (by rw [he]; simp), ?_⟩
  cases p2 with
  | nil =>
    left
    rw [← hpe, he]
    simp [joinP]
  | cons z p3 =>
    right
    exact ⟨joinP (z :: p3), by rw [← hpe, he, joinP_cons_ne_nil k0 (z :: p3) (by simp)]⟩

/-- Keys headed by a fresh dot-free key do not occur among the dotted leaf
keys of a valid dict. -/
theorem fresh_head_notmem_joinedKeys (rest : Dict) (k : Str) (hval : validD rest = true)
    (hkdf : containsDot k = false) (hkm : k ∉ rest.map Prod.fst) :
    (∀ z, (k ++ '.' :: z) ∉ joinedKeys rest) ∧ k ∉ joinedKeys rest := by
  constructor
  · intro z hm
    obtain ⟨q0, hq0m, hq0v, hsplit⟩ := mem_joinedKeys_split rest (k ++ '.' :: z) hval hm
    rcases hsplit with hx | ⟨y, hx⟩
    · exact dotfree_ne_dotted q0 k z (validKey_dotfree q0 hq0v) hx.symm
    · obtain ⟨h1, h2⟩ := dot_append_inj k q0 z y hkdf (validKey_dotfree q0 hq0v) hx
      rw [h1] at hkm
      exact hkm hq0m
  · intro hm
    obtain ⟨q0, hq0m, hq0v, hsplit⟩ := mem_joinedKeys_split rest k hval hm
    rcases hsplit with hx | ⟨y, hx⟩
    · rw [hx] at hkm
      exact hkm hq0m
    · exact dotfree_ne_dotted k q0 y hkdf hx

/-- The dotted leaf keys of a valid dict are pairwise distinct. -/
theorem joinedKeys_nodup : ∀ (n : Nat) (d : Dict), sizeOf d < n → validD d = true →
    (joinedKeys d).Nodup := by
  intro n
  induction n with
  | zero => intro d h; exact absurd h (Nat.not_lt_zero _)
  | succ n ih =>
    intro d hsz hval
    cases d with
    | nil => rw [joinedKeys_eq, leafPaths_nil]; simp
    | cons kv rest =>
      obtain ⟨k, v⟩ := kv
      obtain ⟨hk, hv, hnk, hrest⟩ := validD_cons k v rest hval
      have hszr : sizeOf rest < n := by
        have : sizeOf rest < sizeOf ((k, v) :: rest) := by simp <;> omega
        omega
      have hkdf := validKey_dotfree k hk
      have hfresh := fresh_head_notmem_joinedKeys rest k hrest hkdf hnk
      cases v with
      | branch sub =>
        have hszs : sizeOf sub < n := by
          have : sizeOf sub < sizeOf ((k, Toml.branch sub) :: rest) := by simp; omega
          omega
        have hvs : validD sub = true := by rw [validT_branch] at hv; exact hv
        rw [joinedKeys_eq, leafPaths_cons_branch, List.map_append, List.map_map]
        rw [List.nodup_append]
        refine ⟨?_, by rw [← joinedKeys_eq]; exact ih rest hszr hrest, ?_⟩
        · have hcongr : (leafPaths sub).map ((fun pv => joinP pv.1) ∘ (fun pv => (k :: pv.1, pv.2)))
              = (leafPaths sub).map ((fun s => k ++ '.' :: s) ∘ (fun pv => joinP pv.1)) := by
            apply List.map_congr_left
            intro q hq
            obtain ⟨⟨k0, p2, he, _⟩, _⟩ := leafPaths_shape (sizeOf sub + 1) sub (by omega) hvs q hq
            simp only [Function.comp]
            rw [joinP_cons_ne_nil k q.1 (by rw [he]; simp)]
          rw [hcongr, ← List.map_map]
          apply List.Nodup.map
          · intro x y hxy
            simp at hxy
            exact hxy
          · rw [← joinedKeys_eq]
            exact ih sub hszs hvs
        · intro x hx hy
          obtain ⟨q, hq, hqe⟩ := List.mem_map.mp hx
          obtain ⟨⟨k0, p2, he, _⟩, _⟩ := leafPaths_shape (sizeOf sub + 1) sub (by omega) hvs q hq
          simp only [Function.comp] at hqe
          have hxz : x = k ++ '.' :: joinP q.1 := by
            rw [← hqe, joinP_cons_ne_nil k q.1 (by rw [he]; simp)]
          rw [← joinedKeys_eq] at hy
          rw [hxz] at hy
          exact hfresh.1 (joinP q.1) hy
      | prim p =>
        rw [joinedKeys_eq, leafPaths_cons_leaf k _ rest (by simp [isBranchB]), List.map_cons]
        rw [List.nodup_cons]
        constructor
        · show ¬ joinP [k] ∈ _
          rw [← joinedKeys_eq]
          simpa [joinP] using hfresh.2
        · rw [← joinedKeys_eq]
          exact ih rest hszr hrest
      | arr l =>
        rw [joinedKeys_eq, leafPaths_cons_leaf k _ rest (by simp [isBranchB]), List.map_cons]
        rw [List.nodup_cons]
        constructor
        · show ¬ joinP [k] ∈ _
          rw [← joinedKeys_eq]
          simpa [joinP] using hfresh.2
        · rw [← joinedKeys_eq]
          exact ih rest hszr hrest

/-! ## `leaves` agrees with the direct dotted-key enumeration on valid trees -/

/-- Every leaf path is a nonempty segment list (no validity needed). -/
theorem leafPaths_ne_nil : ∀ (n : Nat) (d : Dict), sizeOf d < n →
    ∀ pv ∈ leafPaths d, pv.1 ≠ [] := by
  intro n
  induction n with
  | zero => intro d h; exact absurd h (Nat.not_lt_zero _)
  | succ n ih =>
    intro d hsz pv hm
    cases d with
    | nil => rw [leafPaths_nil] at hm; simp at hm
    | cons kv rest =>
      obtain ⟨k, v⟩ := kv
      have hszr : sizeOf rest < n := by
        have : sizeOf rest < sizeOf ((k, v) :: rest) := by simp <;> omega
        omega
      cases v with
      | branch sub =>
        rw [leafPaths_cons_branch] at hm
        rcases List.mem_append.mp hm with hm1 | hm2
        · obtain ⟨q, _, hqe⟩ := List.mem_map.mp hm1
          rw [← hqe]
          simp
        · exact ih rest hszr pv hm2
      | prim p =>
        rw [leafPaths_cons_leaf k _ rest (by simp [isBranchB])] at hm
        rcases List.mem_cons.mp hm with hm1 | hm2
        · rw [hm1]; simp
        · exact ih rest hszr pv hm2
      | arr l =>
        rw [leafPaths_cons_leaf k _ rest (by simp [isBranchB])] at hm
        rcases List.mem_cons.mp hm with hm1 | hm2
        · rw [hm1]; simp
        · exact ih rest hszr pv hm2

theorem joinedLeaves_nil : joinedLeaves [] = [] := by
  simp [joinedLeaves, leafPaths_nil]

theorem joinedLeaves_cons_branch (k : Str) (sub rest : Dict) :
    joinedLeaves ((k, .branch sub) :: rest)
      = (joinedLeaves sub).map (fun kv => (k ++ '.' :: kv.1, kv.2)) ++ joinedLeaves rest := by
  rw [joinedLeaves, leafPaths_cons_branch, List.map_append]
  rw [joinedLeaves, List.map_map, List.map_map]
  congr 1
  apply List.map_congr_left
  intro q hq
  simp only [Function.comp]
  rw [joinP_cons_ne_nil k q.1 (leafPaths_ne_nil (sizeOf sub + 1) sub (by omega) q hq)]

theorem joinedLeaves_cons_leaf (k : Str) (v : Toml) (rest : Dict) (hv : isBranchB v = false) :
    joinedLeaves ((k, v) :: rest) = (k, v) :: joinedLeaves rest := by
  rw [joinedLeaves, leafPaths_cons_leaf k v rest hv, List.map_cons]
  rw [joinedLeaves]
  simp [joinP]

theorem joinedKeys_cons_branch (k : Str) (sub rest : Dict) :
    joinedKeys ((k, .branch sub) :: rest)
      = (joinedKeys sub).map (fun s => k ++ '.' :: s) ++ joinedKeys rest := by
  rw [joinedKeys, joinedLeaves_cons_branch, List.map_append, List.map_map]
  rw [joinedKeys, joinedKeys, List.map_map]
  rfl

theorem joinedKeys_cons_leaf (k : Str) (v : Toml) (rest : Dict) (hv : isBranchB v = false) :
    joinedKeys ((k, v) :: rest) = k :: joinedKeys rest := by
  rw [joinedKeys, joinedLeaves_cons_leaf k v rest hv, List.map_cons, joinedKeys]

/-- `dst.update(other)` is plain concatenation when `other` has distinct keys,
none already present in `dst`. -/
theorem updAll_append : ∀ (other dst : Dict), (other.map Prod.fst).Nodup →
    (∀ x ∈ other.map Prod.fst, x ∉ dst.map Prod.fst) →
    updAll dst other = dst ++ other := by
  intro other
  induction other with
  | nil => intro dst _ _; simp [updAll]
  | cons kv o2 ih =>
    intro dst hnd hdisj
    obtain ⟨k, v⟩ := kv
    rw [List.map_cons, List.nodup_cons] at hnd
    have hk : k ∉ dst.map Prod.fst := hdisj k (by simp)
    have hstep : updAll dst ((k, v) :: o2) = updAll (dset dst k v) o2 := by
      simp [updAll]
    rw [hstep, dset_of_not_mem dst k v hk, ih (dst ++ [(k, v)]) hnd.2]
    · simp
    · intro x hx
      rw [List.map_append]
      intro hmem
      rcases List.mem_append.mp hmem with h1 | h2
      · exact hdisj x (by simp [hx]) h1
      · simp at h2
        rw [h2] at hx
        exact hnd.1 hx

/-- `leaves()` with an explicit accumulator equals the accumulator followed by
the dotted leaves, provided no dotted leaf key is already present. -/
theorem leavesAux_joined : ∀ (n : Nat) (d : Dict), sizeOf d < n → validD d = true →
    ∀ (acc : Dict), (∀ x ∈ joinedKeys d, x ∉ acc.map Prod.fst) →
    leavesAux d acc = acc ++ joinedLeaves d := by
  intro n
  induction n with
  | zero => intro d h; exact absurd h (Nat.not_lt_zero _)
  | succ n ih =>
    intro d hsz hval acc hacc
    cases d with
    | nil =>
      rw [leavesAux, joinedLeaves_nil]
      simp
    | cons kv rest =>
      obtain ⟨k, v⟩ := kv
      obtain ⟨hk, hv, hnk, hrest⟩ := validD_cons k v rest hval
      have hszr : sizeOf rest < n := by
        have : sizeOf rest < sizeOf ((k, v) :: rest) := by simp <;> omega
        omega
      have hkdf := validKey_dotfree k hk
      have hfresh := fresh_head_notmem_joinedKeys rest k hrest hkdf hnk
      cases v with
      | branch sub =>
        have hszs : sizeOf sub < n := by
          have : sizeOf sub < sizeOf ((k, Toml.branch sub) :: rest) := by simp <;> omega
          omega
        have hvs : validD sub = true := by rw [validT_branch] at hv; exact hv
        rw [leavesAux]
        have hsub : leavesAux sub [] = joinedLeaves sub := by
          rw [ih sub hszs hvs [] (by simp)]
          simp
        rw [hsub]
        have hMkeys : ((joinedLeaves sub).map (fun kv => (k ++ '.' :: kv.1, kv.2))).map Prod.fst
            = (joinedKeys sub).map (fun s => k ++ '.' :: s) := by
          rw [List.map_map, joinedKeys, List.map_map]
          rfl
        have hMnodup : (((joinedLeaves sub).map
            (fun kv => (k ++ '.' :: kv.1, kv.2))).map Prod.fst).Nodup := by
          rw [hMkeys]
          apply List.Nodup.map
          · intro x y hxy
            simp at hxy
            exact hxy
          · exact joinedKeys_nodup (sizeOf sub + 1) sub (by omega) hvs
        have hMdisj : ∀ x ∈ ((joinedLeaves sub).map
            (fun kv => (k ++ '.' :: kv.1, kv.2))).map Prod.fst, x ∉ acc.map Prod.fst := by
          intro x hx
          apply hacc
          rw [hMkeys] at hx
          rw [joinedKeys_cons_branch]
          exact List.mem_append.mpr (Or.inl hx)
        rw [updAll_append _ acc hMnodup hMdisj]
        rw [ih rest hszr hrest _ ?_]
        · rw [joinedLeaves_cons_branch]
          simp
        · intro x hx
          rw [List.map_append, hMkeys]
          intro hmem
          rcases List.mem_append.mp hmem with h1 | h2
          · exact hacc x (by rw [joinedKeys_cons_branch]; exact List.mem_append.mpr (Or.inr hx)) h1
          · obtain ⟨s, _, hse⟩ := List.mem_map.mp h2
            rw [← hse] at hx
            exact hfresh.1 s hx
      | prim p =>
        rw [leavesAux]
        · have hkacc : k ∉ acc.map Prod.fst :=
            hacc k (by rw [joinedKeys_cons_leaf k _ rest (by simp [isBranchB])]; simp)
          rw [dset_of_not_mem acc k _ hkacc]
          rw [ih rest hszr hrest _ ?_]
          · rw [joinedLeaves_cons_leaf k _ rest (by simp [isBranchB])]
            simp
          · intro x hx
            rw [List.map_append]
            intro hmem
            rcases List.mem_append.mp hmem with h1 | h2
            · exact hacc x
                (by rw [joinedKeys_cons_leaf k _ rest (by simp [isBranchB])]; simp [hx]) h1
            · simp at h2
              rw [h2] at hx
              exact hfresh.2 hx
        · simp
      | arr l =>
        rw [leavesAux]
        · have hkacc : k ∉ acc.map Prod.fst :=
            hacc k (by rw [joinedKeys_cons_leaf k _ rest (by simp [isBranchB])]; simp)
          rw [dset_of_not_mem acc k _ hkacc]
          rw [ih rest hszr hrest _ ?_]
          · rw [joinedLeaves_cons_leaf k _ rest (by simp [isBranchB])]
            simp
          · intro x hx
            rw [List.map_append]
            intro hmem
            rcases List.mem_append.mp hmem with h1 | h2
            · exact hacc x
                (by rw [joinedKeys_cons_leaf k _ rest (by simp [isBranchB])]; simp [hx]) h1
            · simp at h2
              rw [h2] at hx
              exact hfresh.2 hx
        · simp

/-- On a valid tree, `leaves()` is exactly the dotted-leaf enumeration. -/
theorem leaves_eq_joined (d : Dict) (h : validD d = true) : leaves d = joinedLeaves d := by
  rw [leaves, leavesAux_joined (sizeOf d + 1) d (by omega) h [] (by simp)]
  simp

/-! ## Forward evaluation of the nesting recursion -/

theorem nestMany_nil (t : Dict) : nestMany t [] = .ok t := by rw [nestMany]

theorem nestMany_cons (t : Dict) (k : Str) (v : Toml) (rest : List (Str × Toml)) :
    nestMany t ((k, v) :: rest) = match nest1 t k v with
      | .ok d2 => nestMany d2 rest
      | .error e => .error e := by
  rw [nestMany]

theorem nestCheck_none (t : Dict) (key : Str) (item : Toml) (h : dlookup t key = none) :
    nestCheck t key item = .ok () := by
  rw [nestCheck, h]

theorem nest1_eq_branch (t : Dict) (key hd tl : Str) (item : Toml)
    (hchk : nestCheck t key item = .ok ()) (hsplit : dotSplit1 key = some (hd, tl)) :
    nest1 t key item = nestBranch t hd tl item := by
  rw [nest1, hchk]
  split
  · rename_i heq
    exact absurd heq (by simp)
  · split
    · rename_i hd2 tl2 heq
      rw [hsplit] at heq
      simp at heq
      obtain ⟨h1, h2⟩ := heq
      subst h1
      subst h2
      rfl
    · rename_i heq
      rw [hsplit] at heq
      exact absurd heq (by simp)

theorem nest1_eq_leaf (t : Dict) (key : Str) (item : Toml)
    (hchk : nestCheck t key item = .ok ()) (hsplit : dotSplit1 key = none) :
    nest1 t key item = nestLeaf t key item := by
  rw [nest1, hchk]
  split
  · rename_i heq
    exact absurd heq (by simp)
  · split
    · rename_i hd2 tl2 heq
      rw [hsplit] at heq
      exact absurd heq (by simp)
    · rfl

theorem nestBranch_at_branch_ok (t : Dict) (k s : Str) (v : Toml) (b0 b2 : Dict)
    (hb0 : dlookup t k = some (.branch b0)) (hn : nest1 b0 s v = .ok b2) :
    nestBranch t k s v = .ok (dset t k (.branch b2)) := by
  rw [nestBranch]
  split
  · rename_i b hb
    rw [hb0] at hb
    injection hb with hb2
    injection hb2 with hb3
    rw [← hb3, hn]
  · rename_i w hnc heq
    rw [hb0] at heq
    injection heq with h2
    exact absurd h2.symm (hnc b0)
  · rename_i hb
    rw [hb0] at hb
    exact absurd hb (by simp)

theorem nestBranch_at_branch_err (t : Dict) (k s : Str) (v : Toml) (b0 : Dict) (e : NestErr)
    (hb0 : dlookup t k = some (.branch b0)) (hn : nest1 b0 s v = .error e) :
    nestBranch t k s v = .error e := by
  rw [nestBranch]
  split
  · rename_i b hb
    rw [hb0] at hb
    injection hb with hb2
    injection hb2 with hb3
    rw [← hb3, hn]
  · rename_i w hnc heq
    rw [hb0] at heq
    injection heq with h2
    exact absurd h2.symm (hnc b0)
  · rename_i hb
    rw [hb0] at hb
    exact absurd hb (by simp)

theorem nestBranch_at_none_ok (t : Dict) (k s : Str) (v : Toml) (b2 : Dict)
    (hnone : dlookup t k = none) (hn : nest1 [] s v = .ok b2) :
    nestBranch t k s v = .ok (dset t k (.branch b2)) := by
  rw [nestBranch]
  split
  · rename_i b hb
    rw [hnone] at hb
    exact absurd hb (by simp)
  · rename_i w hnc heq
    rw [hnone] at heq
    exact absurd heq (by simp)
  · rw [hn]

theorem nestBranch_at_none_err (t : Dict) (k s : Str) (v : Toml) (e : NestErr)
    (hnone : dlookup t k = none) (hn : nest1 [] s v = .error e) :
    nestBranch t k s v = .error e := by
  rw [nestBranch]
  split
  · rename_i b hb
    rw [hnone] at hb
    exact absurd hb (by simp)
  · rename_i w hnc heq
    rw [hnone] at heq
    exact absurd heq (by simp)
  · rw [hn]

/-- Nesting a dot-free fresh key with a leaf value appends the pair. -/
theorem nest1_leaf_insert (t : Dict) (k : Str) (v : Toml) (hdf : containsDot k = false)
    (hnone : dlookup t k = none) (hleaf : isBranchB v = false) :
    nest1 t k v = .ok (t ++ [(k, v)]) := by
  rw [nest1_eq_leaf t k v (nestCheck_none t k v hnone) (dotSplit1_none_of_dotfree k hdf)]
  cases v with
  | branch kvs => simp [isBranchB] at hleaf
  | prim p =>
    rw [nestLeaf]
    · rw [dset_of_not_mem t k _ ((dlookup_eq_none_iff t k).mp hnone)]
    · simp
  | arr l =>
    rw [nestLeaf]
    · rw [dset_of_not_mem t k _ ((dlookup_eq_none_iff t k).mp hnone)]
    · simp

theorem keysDF_append_single (t : Dict) (k : Str) (x : Toml) (ht : keysDF t = true)
    (hk : containsDot k = false) : keysDF (t ++ [(k, x)]) = true := by
  simp only [keysDF, List.all_append] at ht ⊢
  rw [Bool.and_eq_true]
  exact ⟨ht, by simp [hk]⟩

theorem nestMany_append : ∀ (a : List (Str × Toml)) (t : Dict) (b : List (Str × Toml)),
    nestMany t (a ++ b) = match nestMany t a with
      | .ok t2 => nestMany t2 b
      | .error e => .error e := by
  intro a
  induction a with
  | nil =>
    intro t b
    rw [List.nil_append, nestMany_nil]
  | cons kv a2 ih =>
    intro t b
    obtain ⟨k, v⟩ := kv
    rw [List.cons_append, nestMany_cons, nestMany_cons]
    cases hn : nest1 t k v with
    | ok d2 => exact ih d2 b
    | error e => rfl

/-- Inserting a `k.`-prefixed family into a tree that already holds a branch
at `k` factors through nesting into that branch. -/
theorem nestMany_under_some : ∀ (L0 : List (Str × Toml)) (t : Dict) (k : Str) (b0 : Dict),
    containsDot k = false → keysDF t = true → dlookup t k = some (.branch b0) →
    nestMany t (L0.map (fun kv => (k ++ '.' :: kv.1, kv.2)))
      = (nestMany b0 L0).map (fun b => dset t k (.branch b)) := by
  intro L0
  induction L0 with
  | nil =>
    intro t k b0 hdf ht hb0
    rw [List.map_nil, nestMany_nil, nestMany_nil]
    show Except.ok t = Except.ok (dset t k (Toml.branch b0))
    rw [dset_of_lookup_eq t k _ hb0]
  | cons sv L2 ih =>
    intro t k b0 hdf ht hb0
    obtain ⟨s, v⟩ := sv
    rw [List.map_cons, nestMany_cons, nestMany_cons]
    have hchk : nestCheck t (k ++ '.' :: s) v = .ok () :=
      nestCheck_none t _ v (dlookup_dotted_none t _ ht (containsDot_append_dot k s))
    rw [nest1_eq_branch t (k ++ '.' :: s) k s v hchk (dotSplit1_dotfree_append k s hdf)]
    cases hn : nest1 b0 s v with
    | error e =>
      rw [nestBranch_at_branch_err t k s v b0 e hb0 hn]
      rfl
    | ok b2 =>
      rw [nestBranch_at_branch_ok t k s v b0 b2 hb0 hn]
      show nestMany (dset t k (.branch b2)) (L2.map (fun kv => (k ++ '.' :: kv.1, kv.2)))
          = (nestMany b2 L2).map (fun b => dset t k (.branch b))
      rw [ih (dset t k (.branch b2)) k b2 hdf (keysDF_dset t k _ ht hdf)
          (dlookup_dset_self t k _)]
      cases nestMany b2 L2 with
      | ok b3 =>
        show Except.ok (dset (dset t k (Toml.branch b2)) k (Toml.branch b3))
            = Except.ok (dset t k (Toml.branch b3))
        rw [dset_dset]
      | error e => rfl

/-- Inserting a nonempty `k.`-prefixed family into a tree without `k` creates
the branch at `k` by appending it. -/
theorem nestMany_under_none (L0 : List (Str × Toml)) (s0 : Str) (v0 : Toml) (t : Dict) (k : Str)
    (hdf : containsDot k = false) (ht : keysDF t = true) (hnone : dlookup t k = none) :
    nestMany t (((s0, v0) :: L0).map (fun kv => (k ++ '.' :: kv.1, kv.2)))
      = (nestMany [] ((s0, v0) :: L0)).map (fun b => t ++ [(k, .branch b)]) := by
  rw [List.map_cons, nestMany_cons, nestMany_cons]
  have hchk : nestCheck t (k ++ '.' :: s0) v0 = .ok () :=
    nestCheck_none t _ v0 (dlookup_dotted_none t _ ht (containsDot_append_dot k s0))
  rw [nest1_eq_branch t (k ++ '.' :: s0) k s0 v0 hchk (dotSplit1_dotfree_append k s0 hdf)]
  cases hn : nest1 [] s0 v0 with
  | error e =>
    rw [nestBranch_at_none_err t k s0 v0 e hnone hn]
    rfl
  | ok b2 =>
    rw [nestBranch_at_none_ok t k s0 v0 b2 hnone hn]
    show nestMany (dset t k (.branch b2)) (L0.map (fun kv => (k ++ '.' :: kv.1, kv.2)))
        = (nestMany b2 L0).map (fun b => t ++ [(k, .branch b)])
    rw [dset_of_not_mem t k _ ((dlookup_eq_none_iff t k).mp hnone)]
    have hlk2 : dlookup (t ++ [(k, .branch b2)]) k = some (.branch b2) := by
      rw [dlookup_append_left_none t _ k hnone]
      simp [dlookup]
    rw [nestMany_under_some L0 (t ++ [(k, .branch b2)]) k b2 hdf
        (keysDF_append_single t k _ ht hdf) hlk2]
    cases nestMany b2 L0 with
    | ok b3 =>
      show Except.ok (dset (t ++ [(k, Toml.branch b2)]) k (Toml.branch b3))
          = Except.ok (t ++ [(k, Toml.branch b3)])
      rw [dset_append_last t k _ _ hnone]
    | error e => rfl

/-! ## Pruning empty branches -/

theorem pruneD_nil : pruneD [] = [] := by rw [pruneD]

theorem pruneD_cons_branch (k : Str) (sub rest : Dict) :
    pruneD ((k, .branch sub) :: rest)
      = (if (leafPaths sub).isEmpty then [] else [(k, Toml.branch (pruneD sub))])
        ++ pruneD rest := by
  rw [pruneD]

theorem pruneD_cons_leaf (k : Str) (v : Toml) (rest : Dict) (hv : isBranchB v = false) :
    pruneD ((k, v) :: rest) = (k, v) :: pruneD rest := by
  cases v with
  | branch sub => simp [isBranchB] at hv
  | prim p =>
    rw [pruneD]
    simp
  | arr l =>
    rw [pruneD]
    simp

/-- Pruning empty branches does not change the leaf paths. -/
theorem leafPaths_pruneD : ∀ (n : Nat) (d : Dict), sizeOf d < n →
    leafPaths (pruneD d) = leafPaths d := by
  intro n
  induction n with
  | zero => intro d h; exact absurd h (Nat.not_lt_zero _)
  | succ n ih =>
    intro d hsz
    cases d with
    | nil => rw [pruneD_nil]
    | cons kv rest =>
      obtain ⟨k, v⟩ := kv
      have hszr : sizeOf rest < n := by
        have : sizeOf rest < sizeOf ((k, v) :: rest) := by simp <;> omega
        omega
      cases v with
      | branch sub =>
        have hszs : sizeOf sub < n := by
          have : sizeOf sub < sizeOf ((k, Toml.branch sub) :: rest) := by simp <;> omega
          omega
        rw [pruneD_cons_branch]
        cases hLP : leafPaths sub with
        | nil =>
          simp only [List.isEmpty_nil, if_true, List.nil_append]
          rw [ih rest hszr, leafPaths_cons_branch, hLP]
          simp
        | cons pv0 lps =>
          simp only [List.isEmpty_cons, Bool.false_eq_true, if_false, List.singleton_append]
          rw [leafPaths_cons_branch, leafPaths_cons_branch, ih sub hszs, ih rest hszr]
      | prim p =>
        rw [pruneD_cons_leaf k _ rest (by simp [isBranchB])]
        rw [leafPaths_cons_leaf k _ (pruneD rest) (by simp [isBranchB])]
        rw [leafPaths_cons_leaf k _ rest (by simp [isBranchB])]
        rw [ih rest hszr]
      | arr l =>
        rw [pruneD_cons_leaf k _ rest (by simp [isBranchB])]
        rw [leafPaths_cons_leaf k _ (pruneD rest) (by simp [isBranchB])]
        rw [leafPaths_cons_leaf k _ rest (by simp [isBranchB])]
        rw [ih rest hszr]

/-- Pruning never introduces new top-level keys. -/
theorem keys_pruneD_sub : ∀ (n : Nat) (d : Dict), sizeOf d < n →
    ∀ k2 ∈ (pruneD d).map Prod.fst, k2 ∈ d.map Prod.fst := by
  intro n
  induction n with
  | zero => intro d h; exact absurd h (Nat.not_lt_zero _)
  | succ n ih =>
    intro d hsz k2 hm
    cases d with
    | nil => rw [pruneD_nil] at hm; simp at hm
    | cons kv rest =>
      obtain ⟨k, v⟩ := kv
      have hszr : sizeOf rest < n := by
        have : sizeOf rest < sizeOf ((k, v) :: rest) := by simp <;> omega
        omega
      cases v with
      | branch sub =>
        rw [pruneD_cons_branch, List.map_append] at hm
        rcases List.mem_append.mp hm with h1 | h2
        · split at h1
          · simp at h1
          · simp at h1
            simp [h1]
        · simp [ih rest hszr k2 h2]
      | prim p =>
        rw [pruneD_cons_leaf k _ rest (by simp [isBranchB]), List.map_cons] at hm
        rcases List.mem_cons.mp hm with h1 | h2
        · simp [h1]
        · simp [ih rest hszr k2 h2]
      | arr l =>
        rw [pruneD_cons_leaf k _ rest (by simp [isBranchB]), List.map_cons] at hm
        rcases List.mem_cons.mp hm with h1 | h2
        · simp [h1]
        · simp [ih rest hszr k2 h2]

/-- Pruning preserves validity. -/
theorem validD_pruneD : ∀ (n : Nat) (d : Dict), sizeOf d < n → validD d = true →
    validD (pruneD d) = true := by
  intro n
  induction n with
  | zero => intro d h; exact absurd h (Nat.not_lt_zero _)
  | succ n ih =>
    intro d hsz hval
    cases d with
    | nil => rw [pruneD_nil]; rw [validD]
    | cons kv rest =>
      obtain ⟨k, v⟩ := kv
      obtain ⟨hk, hv, hnk, hrest⟩ := validD_cons k v rest hval
      have hszr : sizeOf rest < n := by
        have : sizeOf rest < sizeOf ((k, v) :: rest) := by simp <;> omega
        omega
      have hall : (pruneD rest).all (fun kv => kv.1 ≠ k) = true := by
        simp only [List.all_eq_true, decide_eq_true_eq]
        intro kv hm he
        exact hnk (by
          rw [← he]
          exact keys_pruneD_sub (sizeOf rest + 1) rest (by omega) kv.1
            (List.mem_map_of_mem _ hm))
      cases v with
      | branch sub =>
        have hszs : sizeOf sub < n := by
          have : sizeOf sub < sizeOf ((k, Toml.branch sub) :: rest) := by simp <;> omega
          omega
        have hvs : validD sub = true := by rw [validT_branch] at hv; exact hv
        rw [pruneD_cons_branch]
        cases hLP : leafPaths sub with
        | nil =>
          simp only [List.isEmpty_nil, if_true, List.nil_append]
          exact ih rest hszr hrest
        | cons pv0 lps =>
          simp only [List.isEmpty_cons, Bool.false_eq_true, if_false, List.singleton_append]
          rw [validD]
          simp only [Bool.and_eq_true]
          refine ⟨⟨⟨hk, ?_⟩, hall⟩, ih rest hszr hrest⟩
          rw [validT_branch]
          exact ih sub hszs hvs
      | prim p =>
        rw [pruneD_cons_leaf k _ rest (by simp [isBranchB]), validD]
        simp only [Bool.and_eq_true]
        exact ⟨⟨⟨hk, hv⟩, hall⟩, ih rest hszr hrest⟩
      | arr l =>
        rw [pruneD_cons_leaf k _ rest (by simp [isBranchB]), validD]
        simp only [Bool.and_eq_true]
        exact ⟨⟨⟨hk, hv⟩, hall⟩, ih rest hszr hrest⟩

/-- Nesting the dotted leaves of a valid tree into a fresh destination
rebuilds exactly the tree with its empty branches pruned. -/
theorem nestMany_joined : ∀ (n : Nat) (d : Dict), sizeOf d < n → validD d = true →
    ∀ (t : Dict), keysDF t = true → (∀ k2 ∈ d.map Prod.fst, dlookup t k2 = none) →
    nestMany t (joinedLeaves d) = .ok (t ++ pruneD d) := by
  intro n
  induction n with
  | zero => intro d h; exact absurd h (Nat.not_lt_zero _)
  | succ n ih =>
    intro d hsz hval t ht hlk
    cases d with
    | nil =>
      rw [joinedLeaves_nil, nestMany_nil, pruneD_nil]
      simp
    | cons kv rest =>
      obtain ⟨k, v⟩ := kv
      obtain ⟨hk, hv, hnk, hrest⟩ := validD_cons k v rest hval
      have hszr : sizeOf rest < n := by
        have : sizeOf rest < sizeOf ((k, v) :: rest) := by simp <;> omega
        omega
      have hkdf := validKey_dotfree k hk
      have hlkk : dlookup t k = none := hlk k (by simp)
      have hlkr : ∀ k2 ∈ rest.map Prod.fst, k2 ≠ k := fun k2 hm he => hnk (he ▸ hm)
      cases v with
      | branch sub =>
        have hszs : sizeOf sub < n := by
          have : sizeOf sub < sizeOf ((k, Toml.branch sub) :: rest) := by simp <;> omega
          omega
        have hvs : validD sub = true := by rw [validT_branch] at hv; exact hv
        rw [joinedLeaves_cons_branch, nestMany_append]
        cases hLP : leafPaths sub with
        | nil =>
          have hJ : joinedLeaves sub = [] := by rw [joinedLeaves, hLP]; rfl
          rw [hJ, List.map_nil, nestMany_nil]
          show nestMany t (joinedLeaves rest)
              = Except.ok (t ++ pruneD ((k, Toml.branch sub) :: rest))
          rw [ih rest hszr hrest t ht (fun k2 hm => hlk k2 (by simp [hm]))]
          rw [pruneD_cons_branch, hLP]
          simp
        | cons pv0 lps =>
          have hJ : joinedLeaves sub
              = (joinP pv0.1, pv0.2) :: lps.map (fun pv => (joinP pv.1, pv.2)) := by
            rw [joinedLeaves, hLP, List.map_cons]
          rw [hJ, nestMany_under_none (lps.map (fun pv => (joinP pv.1, pv.2)))
            (joinP pv0.1) pv0.2 t k hkdf ht hlkk, ← hJ]
          rw [ih sub hszs hvs [] rfl (fun k2 _ => rfl)]
          show nestMany (t ++ [(k, Toml.branch ([] ++ pruneD sub))]) (joinedLeaves rest)
              = Except.ok (t ++ pruneD ((k, Toml.branch sub) :: rest))
          rw [List.nil_append]
          have hlk2 : ∀ k2 ∈ rest.map Prod.fst,
              dlookup (t ++ [(k, Toml.branch (pruneD sub))]) k2 = none := by
            intro k2 hm
            rw [dlookup_append_left_none t _ k2 (hlk k2 (by simp [hm]))]
            simp [dlookup, Ne.symm (hlkr k2 hm)]
          rw [ih rest hszr hrest _
            (keysDF_append_single t k (Toml.branch (pruneD sub)) ht hkdf) hlk2]
          rw [pruneD_cons_branch, hLP]
          simp
      | prim p =>
        rw [joinedLeaves_cons_leaf k _ rest (by simp [isBranchB]), nestMany_cons]
        rw [nest1_leaf_insert t k _ hkdf hlkk (by simp [isBranchB])]
        show nestMany (t ++ [(k, Toml.prim p)]) (joinedLeaves rest)
            = Except.ok (t ++ pruneD ((k, Toml.prim p) :: rest))
        have hlk2 : ∀ k2 ∈ rest.map Prod.fst,
            dlookup (t ++ [(k, Toml.prim p)]) k2 = none := by
          intro k2 hm
          rw [dlookup_append_left_none t _ k2 (hlk k2 (by simp [hm]))]
          simp [dlookup, Ne.symm (hlkr k2 hm)]
        rw [ih rest hszr hrest _
          (keysDF_append_single t k (Toml.prim p) ht hkdf) hlk2]
        rw [pruneD_cons_leaf k _ rest (by simp [isBranchB])]
        simp
      | arr l =>
        rw [joinedLeaves_cons_leaf k _ rest (by simp [isBranchB]), nestMany_cons]
        rw [nest1_leaf_insert t k _ hkdf hlkk (by simp [isBranchB])]
        show nestMany (t ++ [(k, Toml.arr l)]) (joinedLeaves rest)
            = Except.ok (t ++ pruneD ((k, Toml.arr l) :: rest))
        have hlk2 : ∀ k2 ∈ rest.map Prod.fst,
            dlookup (t ++ [(k, Toml.arr l)]) k2 = none := by
          intro k2 hm
          rw [dlookup_append_left_none t _ k2 (hlk k2 (by simp [hm]))]
          simp [dlookup, Ne.symm (hlkr k2 hm)]
        rw [ih rest hszr hrest _
          (keysDF_append_single t k (Toml.arr l) ht hkdf) hlk2]
        rw [pruneD_cons_leaf k _ rest (by simp [isBranchB])]
        simp

/-- C9: for every valid nested tree, `from_dotted(tree.leaves())` succeeds and
the reconstructed tree has exactly the same `leaves()` mapping. -/
theorem claim_C9 (d : Dict) (h : validD d = true) :
    ∃ d2, from_dotted (leaves d) = .ok d2 ∧ leaves d2 = leaves d := by
  refine ⟨pruneD d, ?_, ?_⟩
  · show nestMany [] (leaves d) = .ok (pruneD d)
    rw [leaves_eq_joined d h,
      nestMany_joined (sizeOf d + 1) d (by omega) h [] rfl (fun k2 _ => rfl)]
    rfl
  · have h2 : validD (pruneD d) = true := validD_pruneD (sizeOf d + 1) d (by omega) h
    rw [leaves_eq_joined _ h2, leaves_eq_joined d h]
    rw [joinedLeaves, joinedLeaves, leafPaths_pruneD (sizeOf d + 1) d (by omega)]

/-- Witness for C9 on the concrete example tree. -/
theorem claim_C9_witness :
    validD exC9tree = true ∧
      ∃ d2, from_dotted (leaves exC9tree) = .ok d2 ∧ leaves d2 = leaves exC9tree :=
  ⟨by simp only [exC9tree, validD, validT]; decide,
   claim_C9 exC9tree (by simp only [exC9tree, validD, validT]; decide)⟩

end TyrannoSpec
